import Mathlib

/-!
Verification of the deployment-planning core of the MDO-Project repository.

The embedding below translates the planning/validation logic of
`src/src/dependency_manager.py` and `src/lambda_functions/dependency_analyzer.py`
into Lean: Python dicts become association lists (iteration order = list order),
Python sets become lists used through membership, Python `max()` over a
non-empty sequence becomes a fold, recursion that Python bounds by the input
size is given explicit fuel, and code that raises exceptions returns
`Option`/`Except`.
-/

/-- One service entry of the dependency graph: `ServiceInfo` of
`dependency_manager.py` together with the `estimated_deploy_time` field used by
`dependency_analyzer.py` (the Python dicts carry the same four fields). -/
structure Svc where
  deps : List String
  priority : Nat
  group : Nat
  time : Nat
deriving DecidableEq

/-- A dependency graph: mapping from service id to its entry
(Python dict, in insertion order). -/
abbrev Graph := List (String × Svc)

/-- The declared service ids (`services.keys()`). -/
def keys (g : Graph) : List String := g.map Prod.fst

/-- `d in services` — membership test among the declared ids. -/
def isKey (g : Graph) (d : String) : Bool := decide (d ∈ keys g)

/-- `services[s]` with a harmless default; every use in the source is guarded
by a membership test, so the default is never observable there. -/
def lookupD (g : Graph) (s : String) : Svc := (g.lookup s).getD ⟨[], 1, 1, 60⟩

/-- Dependencies of `s`, empty when `s` is not declared: the Python loops all
guard dependency access by `if service in services`. -/
def depsOf (g : Graph) (s : String) : List String :=
  match g.lookup s with
  | some sv => sv.deps
  | none => []

/-- The dependency edge relation of the graph: `Edge g a b` holds when the
entry of `a` declares `b` among its dependencies. -/
def Edge (g : Graph) (a b : String) : Prop := ∃ sv, g.lookup a = some sv ∧ b ∈ sv.deps

/-- A circular dependency: some service reaches itself through one or more
dependency edges. -/
def HasCycle (g : Graph) : Prop := ∃ a, Relation.TransGen (Edge g) a a

/-- The dependency loop inside `dfs` of `_has_circular_dependencies`
(`dependency_manager.py` lines 76-89 / `dependency_analyzer.py` lines 177-190):
walk the dependency list, skipping visited nodes unless they sit on the
recursion stack (cycle found), and recursing into unvisited ones via
`visitFn`.  The visited set threads through; the recursion stack is fixed. -/
def dfsDepsWith (visitFn : String → List String → List String → Bool × List String) :
    List String → List String → List String → Bool × List String
  | [], vis, _ => (false, vis)
  | d :: ds, vis, stk =>
    if d ∈ vis then
      if d ∈ stk then (true, vis) else dfsDepsWith visitFn ds vis stk
    else
      match visitFn d vis stk with
      | (true, v) => (true, v)
      | (false, v) => dfsDepsWith visitFn ds v stk

/-- `dfs(service)` of the cycle check: mark the node visited, push it on the
recursion stack, walk its dependencies.  Fuel replaces Python's unbounded
recursion; `dfsFuel` below always suffices. -/
def dfsVisit (g : Graph) : Nat → String → List String → List String → Bool × List String
  | 0, _, vis, _ => (false, vis)
  | fuel + 1, s, vis, stack => dfsDepsWith (dfsVisit g fuel) (depsOf g s) (s :: vis) (s :: stack)

/-- Upper bound on the number of distinct nodes the traversal can ever visit:
all declared ids plus all referenced dependency ids. -/
def nodeUniverse (g : Graph) : List String := keys g ++ g.flatMap (fun p => p.2.deps)

/-- Sufficient fuel for `dfsVisit`. -/
def dfsFuel (g : Graph) : Nat := (nodeUniverse g).length + 1

/-- The outer loop of `_has_circular_dependencies`: run `dfs` from every not
yet visited declared node. -/
def hcdGo (g : Graph) : List String → List String → Bool
  | [], _ => false
  | s :: rest, vis =>
    if s ∈ vis then hcdGo g rest vis
    else
      match dfsVisit g (dfsFuel g) s vis [] with
      | (true, _) => true
      | (false, vis') => hcdGo g rest vis'

/-- `_has_circular_dependencies` (`dependency_manager.py` lines 71-96) =
`has_circular_dependencies` (`dependency_analyzer.py` lines 172-197). -/
def has_circular_dependencies (g : Graph) : Bool := hcdGo g (keys g) []

/-- `_check_missing_dependencies` (`dependency_manager.py` lines 98-108) =
`check_missing_dependencies` (`dependency_analyzer.py` lines 199-209): collect
every declared dependency id that is not a graph key, then deduplicate
(`list(set(missing))`; the Python set order is arbitrary, the embedding
deduplicates deterministically). -/
def check_missing_dependencies (g : Graph) : List String :=
  ((g.flatMap fun p => p.2.deps).filter fun d => !isKey g d).dedup

/-- `validate_dependencies`: aggregate the cycle flag and the missing
dependency ids into one error list; valid iff no errors. -/
def validate_dependencies (g : Graph) : Bool × List String :=
  let errs :=
    (if has_circular_dependencies g then ["Circular dependencies detected"] else []) ++
      (check_missing_dependencies g).map (fun d => "Missing dependency: " ++ d)
  (errs.isEmpty, errs)

/-- `all(dep in deployed or dep not in services for dep in service.dependencies)` —
the frontier test shared by the parallel-optimized and priority-based loops. -/
def deployableB (g : Graph) (deployed : List String) (s : String) : Bool :=
  (lookupD g s).deps.all fun d => deployed.contains d || !isKey g d

/-- The deployable part of the frontier: the remaining services whose
dependencies are all deployed or undeclared, kept in iteration order. -/
def deplOf (g : Graph) (deployed remaining : List String) : List String :=
  remaining.filter (deployableB g deployed)

/-- The wave selected from the frontier: the deployable services whose
grouping key equals the minimum `m`, in iteration order — exactly the list
Python accumulates in `groups[min_group]`. -/
def waveOf (g : Graph) (key : Svc → Nat) (deployed remaining : List String) (m : Nat) :
    List String :=
  (deplOf g deployed remaining).filter fun s => key (lookupD g s) == m

/-- The shared frontier loop of `_get_parallel_optimized_order`
(`dependency_manager.py` lines 167-196) and `_get_priority_based_order`
(lines 198-228), which differ only in the grouping key (`parallel_group`
resp. `priority`): among the remaining services whose dependencies are
satisfied, group by `key`, deploy the group with the smallest key as the next
wave, and repeat; `none` (propagated by `bind`/`map`) models the
`ValueError` raised on a stuck frontier.  `remaining` is carried as a list
recording Python's set iteration order; each round removes at least one
service, so fuel `remaining.length` always suffices. -/
def frontierLoop (g : Graph) (key : Svc → Nat) :
    Nat → List String → List String → Option (List (List String))
  | 0, _, remaining => if remaining.isEmpty then some [] else none
  | fuel + 1, deployed, remaining =>
    if remaining.isEmpty then some []
    else
      (((deplOf g deployed remaining).map fun s => key (lookupD g s)).min?).bind fun m =>
        (frontierLoop g key fuel (deployed ++ waveOf g key deployed remaining m)
          (remaining.filter fun s => !(waveOf g key deployed remaining m).contains s)).map
          fun ws => waveOf g key deployed remaining m :: ws

/-- `_get_parallel_optimized_order`, iterating the remaining set in key order. -/
def _get_parallel_optimized_order (g : Graph) : Option (List (List String)) :=
  frontierLoop g (·.group) (keys g).length [] (keys g)

/-- `_get_priority_based_order`, iterating the remaining set in key order. -/
def _get_priority_based_order (g : Graph) : Option (List (List String)) :=
  frontierLoop g (·.priority) (keys g).length [] (keys g)

/-- Initial in-degrees of `_get_sequential_order` (`dependency_manager.py`
lines 144-149): each dependency occurrence that is a graph key counts one.
Values are integers because Python lets them go below zero. -/
def initInDeg (g : Graph) : List (String × Int) :=
  g.map fun p => (p.1, ((p.2.deps.filter fun d => isKey g d).length : Int))

/-- `in_degree[s]` lookup. -/
def degLookup (deg : List (String × Int)) (s : String) : Int := (deg.lookup s).getD 0

/-- The services enqueued while popping `c`: those depending on `c` whose
in-degree is about to hit zero (old value 1), in dict order. -/
def kahnNewly (g : Graph) (deg : List (String × Int)) (c : String) : List String :=
  (g.filter fun p => p.2.deps.contains c && degLookup deg p.1 == 1).map Prod.fst

/-- The in-degree table after popping `c`: every service that depends on `c`
is decremented. -/
def kahnDec (g : Graph) (deg : List (String × Int)) (c : String) : List (String × Int) :=
  deg.map fun e => if (lookupD g e.1).deps.contains c then (e.1, e.2 - 1) else e

/-- The Kahn loop of `_get_sequential_order` (`dependency_manager.py`
lines 151-165) = `create_sequential_waves` (`dependency_analyzer.py`
lines 320-347): pop the queue head as a singleton wave, decrement the
in-degree of every service that depends on it, and enqueue (in dict order)
those whose in-degree hits zero.  Each iteration pops one element and the
queue grows only while positive in-degrees drop, so the fuel chosen in
`_get_sequential_order` always suffices. -/
def kahnLoop (g : Graph) : Nat → List String → List (String × Int) → List (List String)
  | 0, _, _ => []
  | _ + 1, [], _ => []
  | fuel + 1, c :: q, deg =>
    [c] :: kahnLoop g fuel (q ++ kahnNewly g deg c) (kahnDec g deg c)

/-- Sum of the positive in-degrees, used to bound the number of loop steps. -/
def sumPos (deg : List (String × Int)) : Nat := (deg.map fun e => e.2.toNat).sum

/-- `_get_sequential_order`: topological sort, one service per wave. -/
def _get_sequential_order (g : Graph) : List (List String) :=
  let deg := initInDeg g
  let q := (deg.filter fun e => e.2 == 0).map Prod.fst
  kahnLoop g (q.length + sumPos deg + 1) q deg

/-- `get_rollback_order` (`dependency_manager.py` lines 230-241): deployed
services in configured order first, then
`list(set(deployed_services) - set(rollback_order))` — the deployed services
absent from the configured part.  The order of that tail is whatever
Python's hash-randomised string-set iteration happens to yield, so it is not
a function of the inputs: the embedding takes the enumeration `tail` as an
explicit parameter, and `RollbackTail` below delimits which lists are valid
materialisations of the set difference. -/
def get_rollback_order (rollback_config deployed_services tail : List String) :
    List String :=
  (rollback_config.filter fun s => deployed_services.contains s) ++ tail

/-- The valid materialisations of the Python set
`set(deployed_services) - set(rollback_order)` built inside
`get_rollback_order`: an enumeration, in some order, of the deployed ids not
in the configured-and-deployed part, each exactly once. -/
def RollbackTail (rollback_config deployed_services tail : List String) : Prop :=
  tail.Nodup ∧
    (∀ x ∈ tail, x ∈ deployed_services ∧
      x ∉ rollback_config.filter fun s => deployed_services.contains s) ∧
    (∀ x ∈ deployed_services,
      x ∉ (rollback_config.filter fun s => deployed_services.contains s) → x ∈ tail)

/-- `complex_services` of `_estimate_wave_time`. -/
def complex_services : List String := ["order-service", "payment-service"]

/-- Per-service deploy time implied by `_estimate_wave_time`: double base time
for complex services. -/
def svcDeployTime (s : String) : Nat := if s ∈ complex_services then 60 * 2 else 60

/-- `_estimate_wave_time` (`dependency_manager.py` lines 286-299): running
maximum of the per-service times, started at the base time 60. -/
def _estimate_wave_time (services : List String) : Nat :=
  services.foldl (fun acc s => max acc (svcDeployTime s)) 60

/-- The hard-coded `load_dependency_config()['services']` table of
`dependency_analyzer.py` (lines 75-113). -/
def lambdaConfigServices : Graph :=
  [("auth-service", ⟨[], 1, 1, 60⟩),
   ("menu-service", ⟨["auth-service"], 2, 2, 45⟩),
   ("order-service", ⟨["auth-service", "menu-service"], 3, 3, 90⟩),
   ("payment-service", ⟨["auth-service"], 2, 2, 75⟩),
   ("notification-service", ⟨["auth-service"], 2, 2, 30⟩),
   ("analytics-service", ⟨["order-service", "payment-service"], 4, 4, 60⟩)]

/-- `parse_service_dependencies` (`dependency_analyzer.py` lines 130-152):
each requested id takes its configured entry, or the default entry
(no dependencies, priority 999, group 999, 60 seconds) when unknown. -/
def parse_service_dependencies (services : List String) : Graph :=
  services.map fun s => (s, (lambdaConfigServices.lookup s).getD ⟨[], 999, 999, 60⟩)

/-- A deployment wave as built by `dependency_analyzer.py` (the fields all
claims are about; the free-text `deployment_context` is omitted). -/
structure Wave where
  wave_number : Nat
  services : List String
  allow_parallel : Bool
  max_concurrent : Nat
  estimated_time : Nat
deriving DecidableEq

/-- `max(service_info[s]['estimated_deploy_time'] for s in members)` — Python's
`max` over a list that is non-empty at every call site, embedded as a fold. -/
def waveTime (g : Graph) (members : List String) : Nat :=
  (members.map fun s => (lookupD g s).time).foldl max 0

/-- The wave-record construction shared by `create_parallel_optimized_waves`
(lines 237-249), `create_priority_based_waves` (lines 289-301) and
`create_sequential_waves` (lines 327-336) of `dependency_analyzer.py`:
number the member lists from 1 and attach `allow_parallel`, the capped
`max_concurrent` and the wave time. -/
def mkWaveList (g : Graph) (cap : Nat) : Nat → List (List String) → List Wave
  | _, [] => []
  | n, w :: ws =>
    ⟨n, w, decide (1 < w.length), min w.length cap, waveTime g w⟩ :: mkWaveList g cap (n + 1) ws

/-- `create_parallel_optimized_waves` (`dependency_analyzer.py` lines 211-259);
`max_concurrent_per_wave` of the `parallel_optimized` strategy is 3. -/
def create_parallel_optimized_waves (g : Graph) : Option (List Wave) :=
  (_get_parallel_optimized_order g).map (mkWaveList g 3 1)

/-- `create_priority_based_waves` (`dependency_analyzer.py` lines 261-308);
`max_concurrent_per_wave` of the `priority_based` strategy is 2. -/
def create_priority_based_waves (g : Graph) : Option (List Wave) :=
  (_get_priority_based_order g).map (mkWaveList g 2 1)

/-- `create_sequential_waves` (`dependency_analyzer.py` lines 310-349): the
Kahn order, one singleton wave per service, `allow_parallel = False`,
`max_concurrent = 1` (both of which `mkWaveList` with cap 1 yields on
singleton waves), wave time = the member's deploy time. -/
def create_sequential_waves (g : Graph) : List Wave :=
  mkWaveList g 1 1 (_get_sequential_order g)

/-- The deployment plan record of `create_deployment_plan`
(`dependency_analyzer.py` lines 351-374).  The two float fields
(`time_savings_percentage`, `parallel_efficiency`) are not claimed and are
omitted; `time_savings_seconds` is an integer difference. -/
structure Plan where
  strategy : String
  total_waves : Nat
  total_services : Nat
  estimated_sequential_time : Nat
  estimated_optimized_time : Nat
  time_savings_seconds : Int
deriving DecidableEq

/-- `create_deployment_plan` (`dependency_analyzer.py` lines 351-374):
sequential total = sum of the wave times; only the literal strategy string
`"parallel_optimized"` gets `optimized = max of the wave times` and a
non-zero saving — every other strategy keeps the sequential total. -/
def create_deployment_plan (waves : List Wave) (strategy : String) : Plan :=
  let total := (waves.map (·.estimated_time)).sum
  if strategy == "parallel_optimized" then
    let opt := if waves.isEmpty then 0 else ((waves.map (·.estimated_time)).max?).getD 0
    ⟨strategy, waves.length, (waves.map fun w => w.services.length).sum, total, opt,
      (total : Int) - (opt : Int)⟩
  else
    ⟨strategy, waves.length, (waves.map fun w => w.services.length).sum, total, total, 0⟩

/-- `get_depth` inside `calculate_max_dependency_depth`
(`dependency_analyzer.py` lines 378-395), with fuel for the recursion: 0 on a
revisited node, 1 on an unknown or dependency-free node, otherwise one more
than the maximum depth of the dependencies (each explored with its own copy
of the visited set). -/
def get_depth (g : Graph) : Nat → String → List String → Nat
  | 0, _, _ => 0
  | fuel + 1, s, visited =>
    if s ∈ visited then 0
    else
      match g.lookup s with
      | none => 1
      | some sv =>
        if sv.deps.isEmpty then 1
        else (sv.deps.map fun d => get_depth g fuel d (s :: visited)).foldl max 0 + 1

/-- `calculate_max_dependency_depth` (`dependency_analyzer.py` lines 376-397):
`max(get_depth(s) for s in service_info)`.  Python's `max` raises
`ValueError` on an empty service map; the embedding returns `none` there. -/
def calculate_max_dependency_depth (g : Graph) : Option Nat :=
  (g.map fun p => get_depth g (dfsFuel g) p.1 []).max?

/-- `estimate_total_deployment_time` (`dependency_analyzer.py` lines 419-427). -/
def estimate_total_deployment_time (p : Plan) : Nat :=
  if p.strategy == "sequential" then p.estimated_sequential_time else p.estimated_optimized_time

/-- The analysis result assembled by `lambda_handler` (the fields the claims
are about). -/
structure AnalyzerResult where
  strategy : String
  total_services : Nat
  total_waves : Nat
  plan : Plan
  estimated_time_seconds : Nat
  max_dependency_depth : Nat
deriving DecidableEq

/-- `lambda_handler` (`dependency_analyzer.py` lines 6-70): parse, validate,
build waves by strategy (any strategy string other than the two parallel ones
takes the sequential branch), build the plan, and assemble the result.  Any
raised error is caught and reported as a 500 response, embedded as
`Except.error`. -/
def lambda_handler (services : List String) (strategy : String) :
    Except String AnalyzerResult :=
  let si := parse_service_dependencies services
  let v := validate_dependencies si
  if !v.1 then Except.error "Invalid dependencies" else
    let wv : Option (List Wave) :=
      if strategy == "parallel_optimized" then create_parallel_optimized_waves si
      else if strategy == "priority_based" then create_priority_based_waves si
      else some (create_sequential_waves si)
    match wv with
    | none => Except.error "Cannot resolve dependencies for remaining services"
    | some waves =>
      let plan := create_deployment_plan waves strategy
      match calculate_max_dependency_depth si with
      | none => Except.error "max() arg is an empty sequence"
      | some depth =>
        Except.ok ⟨strategy, services.length, waves.length, plan,
          estimate_total_deployment_time plan, depth⟩

/-- One entry of `config['deployment_strategies']` as read by
`get_deployment_order` of `dependency_manager.py` (only `allow_parallel` is
consulted there). -/
structure DmStratCfg where
  allow_parallel : Bool
deriving DecidableEq

/-- The strategy catalog matching the repository's configuration: the three
known strategies, parallel allowed for the two non-sequential ones. -/
def dmStrategies : List (String × DmStratCfg) :=
  [("sequential", ⟨false⟩), ("parallel_optimized", ⟨true⟩), ("priority_based", ⟨true⟩)]

/-- `get_deployment_order` (`dependency_manager.py` lines 110-139): validate,
filter the graph to the requested services (default: all), look up
`allow_parallel` for the strategy tag (absent tag: `{}` hence false), then
dispatch — the sequential branch is taken whenever parallel is not allowed
OR the tag is `"sequential"`; the final `Unknown deployment strategy` error is
reachable only for a tag whose configuration allows parallel. -/
def get_deployment_order (strats : List (String × DmStratCfg)) (g : Graph)
    (strategy : String) (services_to_deploy : Option (List String)) :
    Except String (List (List String)) :=
  let v := validate_dependencies g
  if !v.1 then Except.error "Invalid dependencies" else
    let sel := services_to_deploy.getD (keys g)
    let filtered := g.filter fun p => sel.contains p.1
    let allow_parallel := ((strats.lookup strategy).getD ⟨false⟩).allow_parallel
    if !allow_parallel || strategy == "sequential" then
      Except.ok (_get_sequential_order filtered)
    else if strategy == "parallel_optimized" then
      match _get_parallel_optimized_order filtered with
      | some ws => Except.ok ws
      | none => Except.error "Cannot resolve dependencies for remaining services"
    else if strategy == "priority_based" then
      match _get_priority_based_order filtered with
      | some ws => Except.ok ws
      | none => Except.error "Cannot resolve dependencies for remaining services"
    else Except.error ("Unknown deployment strategy: " ++ strategy)

/-- The recursion stack of the cycle DFS, most recent first, is a dependency
path read bottom-up: each stack entry has a dependency edge to the entry
pushed after it. -/
def StackPath (g : Graph) (stk : List String) : Prop :=
  List.Chain' (fun a b => Edge g b a) stk

/-- Invariant of the cycle DFS: the stack is visited, and the finished nodes
(visited but no longer on the stack) are successor-closed and lie on no
cycle. -/
structure DfsInv (g : Graph) (vis stk : List String) : Prop where
  sub : ∀ x ∈ stk, x ∈ vis
  closed : ∀ v ∈ vis, v ∉ stk → ∀ w, Edge g v w → w ∈ vis ∧ w ∉ stk
  acyc : ∀ v ∈ vis, v ∉ stk → ¬ Relation.TransGen (Edge g) v v

/-- Number of universe nodes not yet visited — the quantity each `dfsVisit`
call strictly decreases, used to show `dfsFuel` suffices. -/
def visMeasure (g : Graph) (vis : List String) : Nat :=
  ((nodeUniverse g).filter fun x => !(vis.contains x)).length

/-- The property claimed for every wave sequence: every declared dependency
of a member of wave `i` appears in some wave `j < i`. -/
def wavesDepsOK (g : Graph) (ws : List (List String)) : Bool :=
  (List.range ws.length).all fun i =>
    (ws.getD i []).all fun s =>
      (lookupD g s).deps.all fun d =>
        !isKey g d || (List.range i).any fun j => (ws.getD j []).contains d

/-- Inductive form of the wave invariant: each wave's members have all their
declared dependencies among the services deployed by earlier waves. -/
def OkWaves (g : Graph) : List String → List (List String) → Prop
  | _, [] => True
  | deployed, w :: ws =>
    (∀ s ∈ w, ∀ d ∈ (lookupD g s).deps, isKey g d = true → d ∈ deployed) ∧
      OkWaves g (deployed ++ w) ws

/-- Every service's dependency list is free of duplicates (the spec's data
model declares dependencies as a set of ids). -/
def DupFree (g : Graph) : Prop := ∀ p ∈ g, p.2.deps.Nodup

/-- The three-node cycle `A→B→C→A` from the spec's test catalog. -/
def triangleGraph : Graph :=
  [("A", ⟨["B"], 1, 1, 60⟩), ("B", ⟨["C"], 1, 1, 60⟩), ("C", ⟨["A"], 1, 1, 60⟩)]

/-- An acyclic graph in which `b` declares the same dependency twice. -/
def dupDepsGraph : Graph :=
  [("a", ⟨[], 1, 1, 60⟩), ("b", ⟨["a", "a"], 1, 1, 60⟩)]

/-- Two services both depending on the undeclared id `Z`. -/
def missingPairGraph : Graph :=
  [("A", ⟨["Z"], 1, 1, 60⟩), ("B", ⟨["Z"], 1, 1, 60⟩)]

/-- A single dependency-free service. -/
def singleGraph : Graph := [("a", ⟨[], 1, 1, 60⟩)]

/-- Two independent services sharing priority and parallel group. -/
def tieGraph : Graph := [("a", ⟨[], 1, 1, 60⟩), ("b", ⟨[], 1, 1, 45⟩)]

/-- A two-service chain: `b` depends on `a`. -/
def twoChainGraph : Graph := [("a", ⟨[], 1, 1, 60⟩), ("b", ⟨["a"], 2, 2, 45⟩)]

/-- Ghost quantity for the Kahn proof: how many popped services occur in a
dependency list (each pop of such a service decrements the in-degree once). -/
def popCnt (done : List String) (deps : List String) : Nat :=
  (done.filter fun d => deps.contains d).length

/-- Ghost quantity: the initial in-degree of an entry — its declared
dependency occurrences that are graph keys. -/
def initD (g : Graph) (p : String × Svc) : Int :=
  ((p.2.deps.filter fun d => isKey g d).length : Int)

/-- Ghost reconstruction of the in-degree table after the services `done`
have been popped, in dict order. -/
def degOf (g : Graph) (done : List String) : List (String × Int) :=
  g.map fun p => (p.1, initD g p - (popCnt done p.2.deps : Int))

/-- All declared dependencies of `s` are already popped/deployed. -/
def AllDepsDone (g : Graph) (done : List String) (s : String) : Prop :=
  ∀ d ∈ depsOf g s, isKey g d = true → d ∈ done

lemma lookup_mem {g : Graph} {a : String} {sv : Svc} (h : g.lookup a = some sv) :
    (a, sv) ∈ g := by
  induction g with
  | nil => simp [List.lookup] at h
  | cons p t ih =>
    rw [List.lookup] at h
    by_cases hk : a == p.1
    · simp [hk] at h
      have ha : a = p.1 := by simpa using hk
      cases p
      simp_all
    · simp [hk] at h
      exact List.mem_cons_of_mem _ (ih h)

lemma lookup_mem_keys {g : Graph} {a : String} {sv : Svc} (h : g.lookup a = some sv) :
    a ∈ keys g :=
  List.mem_map_of_mem Prod.fst (lookup_mem h)

lemma edge_iff_depsOf {g : Graph} {a b : String} :
    Edge g a b ↔ b ∈ depsOf g a := by
  unfold Edge depsOf
  cases h : g.lookup a <;> simp

lemma edge_src_mem_keys {g : Graph} {a b : String} (h : Edge g a b) : a ∈ keys g := by
  obtain ⟨sv, hl, _⟩ := h
  exact lookup_mem_keys hl

lemma edge_tgt_mem_universe {g : Graph} {a b : String} (h : Edge g a b) :
    b ∈ nodeUniverse g := by
  obtain ⟨sv, hl, hb⟩ := h
  unfold nodeUniverse
  refine List.mem_append_right _ ?_
  exact List.mem_flatMap.mpr ⟨(a, sv), lookup_mem hl, hb⟩

lemma chain_reach {g : Graph} :
    ∀ {stk : List String} {s d : String}, StackPath g (s :: stk) → d ∈ s :: stk →
      Relation.ReflTransGen (Edge g) d s := by
  intro stk
  induction stk with
  | nil =>
    intro s d _ hd
    simp at hd
    subst hd
    exact Relation.ReflTransGen.refl
  | cons b t ih =>
    intro s d hpath hd
    rcases List.mem_cons.mp hd with h | h
    · subst h
      exact Relation.ReflTransGen.refl
    · have hedge : Edge g b s := (List.chain'_cons.mp hpath).1
      have htail : StackPath g (b :: t) := (List.chain'_cons.mp hpath).2
      exact (ih htail h).tail hedge

lemma dfsDepsWith_sound (g : Graph)
    (visitFn : String → List String → List String → Bool × List String)
    (s : String) (stk₀ : List String)
    (hvf : ∀ d vis, Edge g s d → (visitFn d vis (s :: stk₀)).1 = true → HasCycle g)
    (hpath : StackPath g (s :: stk₀)) :
    ∀ ds vis, (∀ d ∈ ds, Edge g s d) →
      (dfsDepsWith visitFn ds vis (s :: stk₀)).1 = true → HasCycle g := by
  intro ds
  induction ds with
  | nil => intro vis _ h; simp [dfsDepsWith] at h
  | cons d ds ih =>
    intro vis hds h
    have hdedge : Edge g s d := hds d (List.mem_cons_self _ _)
    rw [dfsDepsWith] at h
    by_cases hv : d ∈ vis
    · simp only [hv, if_true] at h
      by_cases hstk : d ∈ s :: stk₀
      · exact ⟨d, Relation.TransGen.tail' (chain_reach hpath hstk) hdedge⟩
      · simp only [hstk, if_false] at h
        exact ih vis (fun x hx => hds x (List.mem_cons_of_mem _ hx)) h
    · simp only [hv, if_false] at h
      rcases hres : visitFn d vis (s :: stk₀) with ⟨b, v⟩
      rw [hres] at h
      cases b with
      | true => exact hvf d vis hdedge (by rw [hres])
      | false => exact ih v (fun x hx => hds x (List.mem_cons_of_mem _ hx)) h

lemma dfsVisit_sound (g : Graph) :
    ∀ fuel s vis stk, StackPath g (s :: stk) →
      (dfsVisit g fuel s vis stk).1 = true → HasCycle g := by
  intro fuel
  induction fuel with
  | zero => intro s vis stk _ h; simp [dfsVisit] at h
  | succ fuel ih =>
    intro s vis stk hpath h
    rw [dfsVisit] at h
    refine dfsDepsWith_sound g (dfsVisit g fuel) s stk ?_ hpath (depsOf g s) (s :: vis)
      (fun d hd => edge_iff_depsOf.mpr hd) h
    intro d v hedge htrue
    have hpath' : StackPath g (d :: s :: stk) := List.chain'_cons.mpr ⟨hedge, hpath⟩
    exact ih d v (s :: stk) hpath' htrue

lemma hcdGo_sound (g : Graph) :
    ∀ names vis, hcdGo g names vis = true → HasCycle g := by
  intro names
  induction names with
  | nil => intro vis h; simp [hcdGo] at h
  | cons s rest ih =>
    intro vis h
    rw [hcdGo] at h
    by_cases hv : s ∈ vis
    · simp only [hv, if_true] at h
      exact ih vis h
    · simp only [hv, if_false] at h
      rcases hres : dfsVisit g (dfsFuel g) s vis [] with ⟨b, v⟩
      rw [hres] at h
      cases b with
      | true =>
        have hpath : StackPath g [s] := List.chain'_singleton s
        exact dfsVisit_sound g (dfsFuel g) s vis [] hpath (by rw [hres])
      | false => exact ih v h

lemma has_circular_sound {g : Graph} (h : has_circular_dependencies g = true) :
    HasCycle g :=
  hcdGo_sound g (keys g) [] h

lemma filter_length_mono {l : List String} {p q : String → Bool}
    (himp : ∀ x, q x = true → p x = true) :
    (l.filter q).length ≤ (l.filter p).length := by
  induction l with
  | nil => simp
  | cons a t ih =>
    simp only [List.filter_cons]
    by_cases hq : q a = true
    · simp [hq, himp a hq]
      omega
    · simp only [Bool.not_eq_true] at hq
      simp only [hq]
      by_cases hp : p a = true <;> simp [hp] <;> omega

lemma filter_length_lt {l : List String} {p q : String → Bool}
    (himp : ∀ x, q x = true → p x = true) {s : String} (hs : s ∈ l)
    (hp : p s = true) (hq : q s = false) :
    (l.filter q).length < (l.filter p).length := by
  induction l with
  | nil => simp at hs
  | cons a t ih =>
    rcases List.mem_cons.mp hs with h | h
    · subst h
      simp only [List.filter_cons, hp, hq, if_true, Bool.false_eq_true, if_false]
      have := filter_length_mono (l := t) himp
      simp
      omega
    · have hlt := ih h
      simp only [List.filter_cons]
      by_cases hqa : q a = true
      · simp [hqa, himp a hqa]
        omega
      · simp only [Bool.not_eq_true] at hqa
        simp only [hqa]
        by_cases hpa : p a = true <;> simp [hpa] <;> omega

lemma visMeasure_le (g : Graph) (vis : List String) :
    visMeasure g vis ≤ (nodeUniverse g).length :=
  List.length_filter_le _ _

lemma notContains_iff {l : List String} {x : String} :
    (!(l.contains x)) = true ↔ x ∉ l := by
  simp [List.elem_iff]

lemma visMeasure_anti {g : Graph} {vis vis' : List String} (h : ∀ x ∈ vis, x ∈ vis') :
    visMeasure g vis' ≤ visMeasure g vis := by
  refine filter_length_mono ?_
  intro x hx
  rw [notContains_iff] at hx ⊢
  exact fun hm => hx (h x hm)

lemma visMeasure_lt {g : Graph} {vis : List String} {s : String}
    (hU : s ∈ nodeUniverse g) (hs : s ∉ vis) :
    visMeasure g (s :: vis) < visMeasure g vis := by
  refine filter_length_lt ?_ hU ?_ ?_
  · intro x hx
    rw [notContains_iff] at hx ⊢
    simp only [List.mem_cons] at hx
    exact fun hm => hx (Or.inr hm)
  · rw [notContains_iff]
    exact hs
  · simp [List.elem_iff]

lemma dfsInv_push {g : Graph} {vis stk : List String} {s : String}
    (inv : DfsInv g vis stk) (hs : s ∉ vis) :
    DfsInv g (s :: vis) (s :: stk) := by
  constructor
  · intro x hx
    rcases List.mem_cons.mp hx with h | h
    · exact h ▸ List.mem_cons_self _ _
    · exact List.mem_cons_of_mem _ (inv.sub x h)
  · intro v hv hvs w hw
    have hvne : v ≠ s := fun h => (hvs (h ▸ List.mem_cons_self _ _))
    have hv' : v ∈ vis := by
      rcases List.mem_cons.mp hv with h | h
      · exact absurd h hvne
      · exact h
    have hvs' : v ∉ stk := fun h => hvs (List.mem_cons_of_mem _ h)
    obtain ⟨hw1, hw2⟩ := inv.closed v hv' hvs' w hw
    refine ⟨List.mem_cons_of_mem _ hw1, ?_⟩
    intro hws
    rcases List.mem_cons.mp hws with h | h
    · exact hs (h ▸ hw1)
    · exact hw2 h
  · intro v hv hvs
    have hvne : v ≠ s := fun h => (hvs (h ▸ List.mem_cons_self _ _))
    have hv' : v ∈ vis := by
      rcases List.mem_cons.mp hv with h | h
      · exact absurd h hvne
      · exact h
    exact inv.acyc v hv' (fun h => hvs (List.mem_cons_of_mem _ h))

lemma dfsInv_reach {g : Graph} {vis stk : List String} (inv : DfsInv g vis stk)
    {v w : String} (hv : v ∈ vis) (hvs : v ∉ stk)
    (h : Relation.ReflTransGen (Edge g) v w) : w ∈ vis ∧ w ∉ stk := by
  induction h with
  | refl => exact ⟨hv, hvs⟩
  | tail _ hbc ih => exact inv.closed _ ih.1 ih.2 _ hbc

lemma dfsInv_pop {g : Graph} {vis stk : List String} {s : String}
    (inv : DfsInv g vis (s :: stk)) (hs : s ∈ vis)
    (hdeps : ∀ d ∈ depsOf g s, d ∈ vis ∧ d ∉ (s :: stk)) :
    DfsInv g vis stk := by
  constructor
  · exact fun x hx => inv.sub x (List.mem_cons_of_mem _ hx)
  · intro v hv hvs w hw
    by_cases hvseq : v = s
    · subst hvseq
      have hwdep : w ∈ depsOf g v := edge_iff_depsOf.mp hw
      obtain ⟨h1, h2⟩ := hdeps w hwdep
      exact ⟨h1, fun h => h2 (List.mem_cons_of_mem _ h)⟩
    · have hvs' : v ∉ s :: stk := by
        intro h
        rcases List.mem_cons.mp h with h | h
        · exact hvseq h
        · exact hvs h
      obtain ⟨h1, h2⟩ := inv.closed v hv hvs' w hw
      exact ⟨h1, fun h => h2 (List.mem_cons_of_mem _ h)⟩
  · intro v hv hvs
    by_cases hvseq : v = s
    · subst hvseq
      intro hcyc
      obtain ⟨b, hvb, hbv⟩ := (Relation.TransGen.head'_iff).mp hcyc
      have hbdep : b ∈ depsOf g v := edge_iff_depsOf.mp hvb
      obtain ⟨hb1, hb2⟩ := hdeps b hbdep
      have := dfsInv_reach inv hb1 hb2 hbv
      exact this.2 (List.mem_cons_self _ _)
    · have hvs' : v ∉ s :: stk := by
        intro h
        rcases List.mem_cons.mp h with h | h
        · exact hvseq h
        · exact hvs h
      exact inv.acyc v hv hvs'

lemma depsOf_mem_universe {g : Graph} {s d : String} (hd : d ∈ depsOf g s) :
    d ∈ nodeUniverse g :=
  edge_tgt_mem_universe (edge_iff_depsOf.mpr hd)

lemma dfsDepsWith_complete (g : Graph)
    (visitFn : String → List String → List String → Bool × List String)
    (stk : List String) (fuel : Nat)
    (hvf : ∀ d vis r, DfsInv g vis stk → d ∉ vis → d ∈ nodeUniverse g →
      fuel ≥ visMeasure g vis + 1 → visitFn d vis stk = (false, r) →
      DfsInv g r stk ∧ (∀ x ∈ vis, x ∈ r) ∧ d ∈ r) :
    ∀ ds vis r, DfsInv g vis stk → (∀ d ∈ ds, d ∈ nodeUniverse g) →
      fuel ≥ visMeasure g vis + 1 →
      dfsDepsWith visitFn ds vis stk = (false, r) →
      DfsInv g r stk ∧ (∀ x ∈ vis, x ∈ r) ∧ ∀ d ∈ ds, d ∈ r ∧ d ∉ stk := by
  intro ds
  induction ds with
  | nil =>
    intro vis r inv _ _ h
    rw [dfsDepsWith] at h
    cases h
    exact ⟨inv, fun x hx => hx, by simp⟩
  | cons d ds ih =>
    intro vis r inv hU hfuel h
    rw [dfsDepsWith] at h
    by_cases hv : d ∈ vis
    · simp only [hv, if_true] at h
      by_cases hstk : d ∈ stk
      · simp only [hstk, if_true] at h
        cases h
      · simp only [hstk, if_false] at h
        obtain ⟨i1, i2, i3⟩ := ih vis r inv (fun x hx => hU x (List.mem_cons_of_mem _ hx)) hfuel h
        refine ⟨i1, i2, ?_⟩
        intro x hx
        rcases List.mem_cons.mp hx with hxd | hxd
        · exact hxd ▸ ⟨i2 d hv, hstk⟩
        · exact i3 x hxd
    · simp only [hv, if_false] at h
      rcases hres : visitFn d vis stk with ⟨b, v⟩
      rw [hres] at h
      cases b with
      | true => cases h
      | false =>
        have hdU : d ∈ nodeUniverse g := hU d (List.mem_cons_self _ _)
        obtain ⟨inv', hsub, hdv⟩ := hvf d vis v inv hv hdU hfuel hres
        have hfuel' : fuel ≥ visMeasure g v + 1 :=
          le_trans (Nat.add_le_add_right (visMeasure_anti hsub) 1) hfuel
        obtain ⟨i1, i2, i3⟩ := ih v r inv' (fun x hx => hU x (List.mem_cons_of_mem _ hx)) hfuel' h
        have hdstk : d ∉ stk := fun hc => hv (inv.sub d hc)
        refine ⟨i1, fun x hx => i2 x (hsub x hx), ?_⟩
        intro x hx
        rcases List.mem_cons.mp hx with hxd | hxd
        · exact hxd ▸ ⟨i2 d hdv, hdstk⟩
        · exact i3 x hxd

lemma dfsVisit_complete (g : Graph) :
    ∀ fuel s vis stk r, DfsInv g vis stk → s ∉ vis → s ∈ nodeUniverse g →
      fuel ≥ visMeasure g vis + 1 →
      dfsVisit g fuel s vis stk = (false, r) →
      DfsInv g r stk ∧ (∀ x ∈ vis, x ∈ r) ∧ s ∈ r := by
  intro fuel
  induction fuel with
  | zero =>
    intro s vis stk r _ hs hU hfuel _
    have := visMeasure_lt hU hs
    omega
  | succ fuel ih =>
    intro s vis stk r inv hs hU hfuel h
    rw [dfsVisit] at h
    have inv' : DfsInv g (s :: vis) (s :: stk) := dfsInv_push inv hs
    have hdeps : ∀ d ∈ depsOf g s, d ∈ nodeUniverse g := fun d hd => depsOf_mem_universe hd
    have hfuel' : fuel ≥ visMeasure g (s :: vis) + 1 := by
      have h1 := visMeasure_lt hU hs
      omega
    obtain ⟨i1, i2, i3⟩ := dfsDepsWith_complete g (dfsVisit g fuel) (s :: stk) fuel
      (fun d vis' r' inv'' hd hU' hf hres => ih d vis' (s :: stk) r' inv'' hd hU' hf hres)
      (depsOf g s) (s :: vis) r inv' hdeps hfuel' h
    have hsr : s ∈ r := i2 s (List.mem_cons_self _ _)
    refine ⟨dfsInv_pop i1 hsr ?_, fun x hx => i2 x (List.mem_cons_of_mem _ hx), hsr⟩
    intro d hd
    exact i3 d hd

lemma hcdGo_complete (g : Graph) :
    ∀ names vis, DfsInv g vis [] → (∀ x ∈ names, x ∈ nodeUniverse g) →
      hcdGo g names vis = false →
      ∀ c, (c ∈ vis ∨ c ∈ names) → ¬ Relation.TransGen (Edge g) c c := by
  intro names
  induction names with
  | nil =>
    intro vis inv _ _ c hc
    rcases hc with hc | hc
    · exact inv.acyc c hc (by simp)
    · simp at hc
  | cons s rest ih =>
    intro vis inv hU h c hc
    rw [hcdGo] at h
    by_cases hv : s ∈ vis
    · simp only [hv, if_true] at h
      refine ih vis inv (fun x hx => hU x (List.mem_cons_of_mem _ hx)) h c ?_
      rcases hc with hc | hc
      · exact Or.inl hc
      · rcases List.mem_cons.mp hc with hcs | hcs
        · exact Or.inl (hcs ▸ hv)
        · exact Or.inr hcs
    · simp only [hv, if_false] at h
      rcases hres : dfsVisit g (dfsFuel g) s vis [] with ⟨b, v⟩
      rw [hres] at h
      cases b with
      | true => cases h
      | false =>
        have hfuel : dfsFuel g ≥ visMeasure g vis + 1 := by
          have := visMeasure_le g vis
          unfold dfsFuel
          omega
        obtain ⟨inv', hsub, hsv⟩ := dfsVisit_complete g (dfsFuel g) s vis [] v inv hv
          (hU s (List.mem_cons_self _ _)) hfuel hres
        refine ih v inv' (fun x hx => hU x (List.mem_cons_of_mem _ hx)) h c ?_
        rcases hc with hc | hc
        · exact Or.inl (hsub c hc)
        · rcases List.mem_cons.mp hc with hcs | hcs
          · exact Or.inl (hcs ▸ hsv)
          · exact Or.inr hcs

lemma has_circular_complete {g : Graph} (h : has_circular_dependencies g = false) :
    ¬ HasCycle g := by
  rintro ⟨c, hc⟩
  have hck : c ∈ keys g := by
    obtain ⟨b, hcb, _⟩ := (Relation.TransGen.head'_iff).mp hc
    exact edge_src_mem_keys hcb
  have hU : ∀ x ∈ keys g, x ∈ nodeUniverse g := by
    intro x hx
    exact List.mem_append_left _ hx
  have inv : DfsInv g [] [] := by
    constructor <;> intro v hv <;> simp at hv
  exact hcdGo_complete g (keys g) [] inv hU h c (Or.inr hck) hc

lemma has_circular_iff (g : Graph) :
    has_circular_dependencies g = true ↔ HasCycle g := by
  constructor
  · exact has_circular_sound
  · intro h
    by_contra hfalse
    exact has_circular_complete (Bool.not_eq_true _ ▸ Bool.of_not_eq_true hfalse) h

/-- C7: the validator's cycle check reports a circular dependency exactly when
the dependency edges among declared services contain a cycle (some service
reaches itself through one or more dependency edges); in particular the
three-service cycle `A→B→C→A` is reported. -/
theorem c7_circular_detection_iff_cycle :
    (∀ g : Graph, has_circular_dependencies g = true ↔ HasCycle g) ∧
      has_circular_dependencies triangleGraph = true :=
  ⟨has_circular_iff, by decide⟩

lemma deployableB_iff {g : Graph} {dep : List String} {s : String} :
    deployableB g dep s = true ↔
      ∀ d ∈ (lookupD g s).deps, d ∈ dep ∨ isKey g d = false := by
  unfold deployableB
  simp [List.all_eq_true, List.elem_iff]

lemma frontierLoop_okWaves (g : Graph) (key : Svc → Nat) :
    ∀ fuel deployed remaining ws,
      frontierLoop g key fuel deployed remaining = some ws →
      OkWaves g deployed ws := by
  intro fuel
  induction fuel with
  | zero =>
    intro deployed remaining ws h
    rw [frontierLoop] at h
    by_cases he : remaining.isEmpty
    · simp only [he, if_true] at h
      cases h
      trivial
    · simp [he] at h
  | succ fuel ih =>
    intro deployed remaining ws h
    rw [frontierLoop] at h
    by_cases he : remaining.isEmpty
    · simp only [he, if_true] at h
      cases h
      trivial
    · simp only [he, if_false, Bool.false_eq_true] at h
      rcases hmin : ((deplOf g deployed remaining).map fun s => key (lookupD g s)).min?
        with _ | m
      · rw [hmin] at h
        cases h
      · rw [hmin, Option.some_bind] at h
        rcases hrec : frontierLoop g key fuel (deployed ++ waveOf g key deployed remaining m)
            (remaining.filter fun s => !(waveOf g key deployed remaining m).contains s)
          with _ | ws'
        · rw [hrec] at h
          cases h
        · rw [hrec, Option.map_some'] at h
          cases h
          constructor
          · intro s hs d hd hk
            have hs' : s ∈ deplOf g deployed remaining := List.mem_of_mem_filter hs
            have hdep : deployableB g deployed s = true := List.of_mem_filter hs'
            rcases deployableB_iff.mp hdep d hd with h1 | h1
            · exact h1
            · rw [hk] at h1
              cases h1
          · exact ih _ _ _ hrec

lemma okWaves_index {g : Graph} :
    ∀ ws deployed, OkWaves g deployed ws →
      ∀ i, i < ws.length → ∀ s ∈ ws.getD i [], ∀ d ∈ (lookupD g s).deps,
        isKey g d = true → d ∈ deployed ∨ ∃ j, j < i ∧ d ∈ ws.getD j [] := by
  intro ws
  induction ws with
  | nil =>
    intro deployed _ i hi
    simp at hi
  | cons w ws ih =>
    intro deployed hok i hi s hs d hd hk
    rcases i with _ | i'
    · simp only [List.getD_cons_zero] at hs
      exact Or.inl (hok.1 s hs d hd hk)
    · simp only [List.getD_cons_succ] at hs
      have hi' : i' < ws.length := by simpa using hi
      rcases ih (deployed ++ w) hok.2 i' hi' s hs d hd hk with h1 | ⟨j, hj1, hj2⟩
      · rcases List.mem_append.mp h1 with h2 | h2
        · exact Or.inl h2
        · exact Or.inr ⟨0, Nat.succ_pos _, by simpa using h2⟩
      · exact Or.inr ⟨j + 1, by omega, by simpa using hj2⟩

lemma wavesDepsOK_iff {g : Graph} {ws : List (List String)} :
    wavesDepsOK g ws = true ↔
      ∀ i, i < ws.length → ∀ s ∈ ws.getD i [], ∀ d ∈ (lookupD g s).deps,
        isKey g d = true → ∃ j, j < i ∧ d ∈ ws.getD j [] := by
  unfold wavesDepsOK
  simp [List.all_eq_true, List.any_eq_true, List.mem_range, List.elem_iff]
  constructor
  · intro h i hi s hs d hd hk
    rcases h i hi s hs d hd with h1 | h1
    · rw [hk] at h1
      cases h1
    · exact h1
  · intro h i hi s hs d hd
    by_cases hk : isKey g d = true
    · exact Or.inr (h i hi s hs d hd hk)
    · exact Or.inl (by simpa using hk)

lemma okWaves_depsOK {g : Graph} {ws : List (List String)}
    (h : OkWaves g [] ws) : wavesDepsOK g ws = true := by
  rw [wavesDepsOK_iff]
  intro i hi s hs d hd hk
  rcases okWaves_index ws [] h i hi s hs d hd hk with h1 | h1
  · simp at h1
  · exact h1

lemma waveOf_remove_perm (g : Graph) (key : Svc → Nat)
    (deployed remaining : List String) (m : Nat) :
    (waveOf g key deployed remaining m ++
      remaining.filter fun s => !(waveOf g key deployed remaining m).contains s).Perm
      remaining := by
  have hwave : waveOf g key deployed remaining m =
      remaining.filter fun s => (key (lookupD g s) == m) && deployableB g deployed s := by
    unfold waveOf deplOf
    rw [List.filter_filter]
  have hrest : (remaining.filter fun s => !(waveOf g key deployed remaining m).contains s) =
      remaining.filter fun s => !((key (lookupD g s) == m) && deployableB g deployed s) := by
    refine List.filter_congr ?_
    intro x hx
    have : (waveOf g key deployed remaining m).contains x =
        ((key (lookupD g x) == m) && deployableB g deployed x) := by
      rw [hwave]
      by_cases hp : ((key (lookupD g x) == m) && deployableB g deployed x) = true
      · rw [hp]
        have : x ∈ remaining.filter fun s => (key (lookupD g s) == m) && deployableB g deployed s :=
          List.mem_filter.mpr ⟨hx, hp⟩
        simpa [List.elem_iff] using this
      · have hp' : ((key (lookupD g x) == m) && deployableB g deployed x) = false := by
          simpa using hp
        rw [hp']
        have : x ∉ remaining.filter fun s => (key (lookupD g s) == m) && deployableB g deployed s := by
          intro hc
          exact hp (List.mem_filter.mp hc).2
        simpa [List.elem_iff] using this
    rw [this]
  rw [hrest, hwave]
  exact List.filter_append_perm _ remaining

lemma frontierLoop_join_perm (g : Graph) (key : Svc → Nat) :
    ∀ fuel deployed remaining ws,
      frontierLoop g key fuel deployed remaining = some ws →
      ws.flatten.Perm remaining := by
  intro fuel
  induction fuel with
  | zero =>
    intro deployed remaining ws h
    rw [frontierLoop] at h
    by_cases he : remaining.isEmpty
    · simp only [he, if_true] at h
      cases h
      simp [List.isEmpty_iff.mp he]
    · simp [he] at h
  | succ fuel ih =>
    intro deployed remaining ws h
    rw [frontierLoop] at h
    by_cases he : remaining.isEmpty
    · simp only [he, if_true] at h
      cases h
      simp [List.isEmpty_iff.mp he]
    · simp only [he, if_false, Bool.false_eq_true] at h
      rcases hmin : ((deplOf g deployed remaining).map fun s => key (lookupD g s)).min?
        with _ | m
      · rw [hmin] at h
        cases h
      · rw [hmin, Option.some_bind] at h
        rcases hrec : frontierLoop g key fuel (deployed ++ waveOf g key deployed remaining m)
            (remaining.filter fun s => !(waveOf g key deployed remaining m).contains s)
          with _ | ws'
        · rw [hrec] at h
          cases h
        · rw [hrec, Option.map_some'] at h
          cases h
          have hperm := ih _ _ _ hrec
          have h1 : (waveOf g key deployed remaining m :: ws').flatten =
              waveOf g key deployed remaining m ++ ws'.flatten := rfl
          rw [h1]
          exact List.Perm.trans (List.Perm.append_left _ hperm)
            (waveOf_remove_perm g key deployed remaining m)

lemma exists_sink {g : Graph} (hacyc : ¬ HasCycle g) {l : List String} (hne : l ≠ []) :
    ∃ s ∈ l, ∀ d, Edge g s d → d ∉ l := by
  haveI : Finite {x // x ∈ l} := (List.finite_toSet l).to_subtype
  set r : {x // x ∈ l} → {x // x ∈ l} → Prop :=
    fun a b => Relation.TransGen (fun x y => Edge g x y ∧ y ∈ l) b.val a.val with hr
  have htrans : Transitive r := by
    intro a b c hab hbc
    exact Relation.TransGen.trans hbc hab
  have hirr : ∀ a, ¬ r a a := by
    intro a ha
    refine hacyc ⟨a.val, ?_⟩
    exact Relation.TransGen.mono (fun x y h => h.1) ha
  haveI : IsTrans {x // x ∈ l} r := ⟨fun a b c hab hbc => htrans hab hbc⟩
  haveI : IsIrrefl {x // x ∈ l} r := ⟨hirr⟩
  have hwf : WellFounded r := Finite.wellFounded_of_trans_of_irrefl r
  rcases l with _ | ⟨a, l'⟩
  · exact absurd rfl hne
  · obtain ⟨mmin, _, hmin⟩ := hwf.has_min Set.univ
      ⟨⟨a, List.mem_cons_self _ _⟩, Set.mem_univ _⟩
    refine ⟨mmin.val, mmin.property, ?_⟩
    intro d hd hdl
    refine hmin ⟨d, hdl⟩ (Set.mem_univ _) ?_
    exact Relation.TransGen.single ⟨hd, hdl⟩

lemma mem_keys_lookup {g : Graph} {s : String} (h : s ∈ keys g) :
    ∃ sv, g.lookup s = some sv ∧ lookupD g s = sv := by
  induction g with
  | nil => simp [keys] at h
  | cons p t ih =>
    by_cases hk : s = p.1
    · refine ⟨p.2, ?_, ?_⟩
      · rw [List.lookup]
        simp [hk]
      · unfold lookupD
        rw [List.lookup]
        simp [hk]
    · have hs : s ∈ keys t := by
        rcases List.mem_cons.mp h with h1 | h1
        · exact absurd h1 hk
        · exact h1
      obtain ⟨sv, h1, h2⟩ := ih hs
      refine ⟨sv, ?_, ?_⟩
      · rw [List.lookup]
        simp only [show (s == p.1) = false by simpa using hk]
        exact h1
      · unfold lookupD
        rw [List.lookup]
        simp only [show (s == p.1) = false by simpa using hk]
        unfold lookupD at h2
        exact h2

lemma length_filter_lt_of_not_mem {l : List String} {p : String → Bool} {a : String}
    (ha : a ∈ l) (hna : a ∉ l.filter p) : (l.filter p).length < l.length := by
  have hpa : p a = false := by
    by_cases h : p a = true
    · exact absurd (List.mem_filter.mpr ⟨ha, h⟩) hna
    · simpa using h
  have h1 : (l.filter p).length < (l.filter fun _ => true).length :=
    filter_length_lt (fun x _ => rfl) ha rfl hpa
  simpa using h1

lemma frontierLoop_complete (g : Graph) (key : Svc → Nat) (hacyc : ¬ HasCycle g) :
    ∀ fuel remaining deployed, remaining.length ≤ fuel →
      (∀ k ∈ keys g, k ∈ deployed ∨ k ∈ remaining) →
      (∀ s ∈ remaining, s ∈ keys g) →
      ∃ ws, frontierLoop g key fuel deployed remaining = some ws := by
  intro fuel
  induction fuel with
  | zero =>
    intro remaining deployed hlen _ _
    have : remaining = [] := List.length_eq_zero.mp (Nat.le_zero.mp hlen)
    subst this
    exact ⟨[], by rw [frontierLoop]; simp⟩
  | succ fuel ih =>
    intro remaining deployed hlen hcov hrem
    by_cases he : remaining.isEmpty
    · exact ⟨[], by rw [frontierLoop]; simp [he]⟩
    · have hne : remaining ≠ [] := by
        intro hc
        rw [hc] at he
        simp at he
      obtain ⟨s, hs, hsink⟩ := exists_sink hacyc hne
      have hdep : deployableB g deployed s = true := by
        rw [deployableB_iff]
        intro d hd
        by_cases hk : isKey g d = true
        · obtain ⟨sv, hl, hld⟩ := mem_keys_lookup (hrem s hs)
          have hedge : Edge g s d := ⟨sv, hl, by rw [hld] at hd; exact hd⟩
          have hdnr : d ∉ remaining := hsink d hedge
          have hdk : d ∈ keys g := by simpa [isKey] using hk
          rcases hcov d hdk with h1 | h1
          · exact Or.inl h1
          · exact absurd h1 hdnr
        · exact Or.inr (by simpa using hk)
      have hsd : s ∈ deplOf g deployed remaining :=
        List.mem_filter.mpr ⟨hs, hdep⟩
      have hdne : deplOf g deployed remaining ≠ [] := by
        intro hc
        rw [hc] at hsd
        simp at hsd
      rcases hmin : ((deplOf g deployed remaining).map fun s => key (lookupD g s)).min?
        with _ | m
      · rw [List.min?_eq_none_iff] at hmin
        rw [List.map_eq_nil_iff] at hmin
        exact absurd hmin hdne
      · have hmmem : m ∈ (deplOf g deployed remaining).map fun s => key (lookupD g s) :=
          List.min?_mem (fun a b => min_choice a b) hmin
        obtain ⟨x, hx, hxm⟩ := List.mem_map.mp hmmem
        have hxw : x ∈ waveOf g key deployed remaining m :=
          List.mem_filter.mpr ⟨hx, by simp [hxm]⟩
        have hxr : x ∈ remaining := List.mem_of_mem_filter hx
        have hlen' : (remaining.filter fun s =>
            !(waveOf g key deployed remaining m).contains s).length ≤ fuel := by
          have hxnot : x ∉ remaining.filter fun s =>
              !(waveOf g key deployed remaining m).contains s := by
            intro hc
            have h2 := (List.mem_filter.mp hc).2
            simp [List.elem_iff] at h2
            exact h2 hxw
          have := length_filter_lt_of_not_mem hxr hxnot
          omega
        have hcov' : ∀ k ∈ keys g, k ∈ deployed ++ waveOf g key deployed remaining m ∨
            k ∈ remaining.filter fun s => !(waveOf g key deployed remaining m).contains s := by
          intro k hk
          rcases hcov k hk with h1 | h1
          · exact Or.inl (List.mem_append_left _ h1)
          · by_cases hw : k ∈ waveOf g key deployed remaining m
            · exact Or.inl (List.mem_append_right _ hw)
            · refine Or.inr (List.mem_filter.mpr ⟨h1, ?_⟩)
              simpa [List.elem_iff] using hw
        have hrem' : ∀ s ∈ remaining.filter fun s =>
            !(waveOf g key deployed remaining m).contains s, s ∈ keys g :=
          fun s hs => hrem s (List.mem_of_mem_filter hs)
        obtain ⟨ws', hws'⟩ := ih _ _ hlen' hcov' hrem'
        refine ⟨waveOf g key deployed remaining m :: ws', ?_⟩
        rw [frontierLoop]
        simp only [he, if_false, Bool.false_eq_true]
        rw [hmin, Option.some_bind, hws', Option.map_some']

lemma lookup_of_mem_nodup {g : Graph} (hnodup : (keys g).Nodup) {p : String × Svc}
    (hp : p ∈ g) : g.lookup p.1 = some p.2 := by
  induction g with
  | nil => simp at hp
  | cons q t ih =>
    rcases List.mem_cons.mp hp with h | h
    · subst h
      rw [List.lookup]
      simp
    · have hne : p.1 ≠ q.1 := by
        intro hc
        have h1 : q.1 ∈ keys t := by
          rw [← hc]
          exact List.mem_map_of_mem Prod.fst h
        have h2 : q.1 ∉ keys t := by
          have := hnodup
          simp only [keys, List.map_cons] at this
          exact (List.nodup_cons.mp this).1
        exact h2 h1
      rw [List.lookup]
      simp only [show (p.1 == q.1) = false by simpa using hne]
      refine ih ?_ h
      have := hnodup
      simp only [keys, List.map_cons] at this
      exact (List.nodup_cons.mp this).2

lemma lookupD_of_mem_nodup {g : Graph} (hnodup : (keys g).Nodup) {p : String × Svc}
    (hp : p ∈ g) : lookupD g p.1 = p.2 := by
  unfold lookupD
  rw [lookup_of_mem_nodup hnodup hp]
  rfl

lemma depsOf_eq_lookupD (g : Graph) (s : String) : depsOf g s = (lookupD g s).deps := by
  unfold depsOf lookupD
  cases g.lookup s <;> rfl

lemma entry_unique {g : Graph} (hnodup : (keys g).Nodup) {p q : String × Svc}
    (hp : p ∈ g) (hq : q ∈ g) (h : p.1 = q.1) : p = q := by
  have h1 := lookup_of_mem_nodup hnodup hp
  have h2 := lookup_of_mem_nodup hnodup hq
  rw [h, h2] at h1
  cases p
  cases q
  simp only at h
  simp only [Option.some.injEq] at h1
  simp [h, h1]

lemma lookup_map_of_mem_nodup {l : List (String × Svc)} (hnodup : (l.map Prod.fst).Nodup)
    {p : String × Svc} (hp : p ∈ l) (f : (String × Svc) → Int) :
    (l.map fun q => (q.1, f q)).lookup p.1 = some (f p) := by
  induction l with
  | nil => simp at hp
  | cons q t ih =>
    rcases List.mem_cons.mp hp with h | h
    · subst h
      rw [List.map_cons, List.lookup]
      simp
    · have hne : p.1 ≠ q.1 := by
        intro hc
        have h1 : q.1 ∈ t.map Prod.fst := by
          rw [← hc]
          exact List.mem_map_of_mem Prod.fst h
        exact (List.nodup_cons.mp (by simpa using hnodup)).1 h1
      rw [List.map_cons, List.lookup]
      simp only [show (p.1 == q.1) = false by simpa using hne]
      exact ih (List.nodup_cons.mp (by simpa using hnodup)).2 h

lemma degOf_lookup {g : Graph} (hnodup : (keys g).Nodup) {p : String × Svc} (hp : p ∈ g)
    (done : List String) :
    degLookup (degOf g done) p.1 = initD g p - (popCnt done p.2.deps : Int) := by
  unfold degLookup degOf
  rw [lookup_map_of_mem_nodup hnodup hp]
  rfl

lemma initInDeg_eq_degOf (g : Graph) : initInDeg g = degOf g [] := by
  unfold initInDeg degOf popCnt initD
  simp

lemma popCnt_append_single (done deps : List String) (c : String) :
    (popCnt (done ++ [c]) deps : Int) =
      (popCnt done deps : Int) + (if deps.contains c then 1 else 0) := by
  unfold popCnt
  rw [List.filter_append]
  by_cases hc : c ∈ deps
  · simp [List.elem_iff, hc]
  · simp [List.elem_iff, hc]

lemma kahnDec_degOf {g : Graph} (hnodup : (keys g).Nodup) (done : List String) (c : String) :
    kahnDec g (degOf g done) c = degOf g (done ++ [c]) := by
  unfold kahnDec degOf
  rw [List.map_map]
  refine List.map_congr_left ?_
  intro p hp
  simp only [Function.comp_apply]
  rw [lookupD_of_mem_nodup hnodup hp]
  by_cases hc : c ∈ p.2.deps
  · simp only [show p.2.deps.contains c = true by simpa [List.elem_iff] using hc, if_true]
    rw [popCnt_append_single]
    simp only [show p.2.deps.contains c = true by simpa [List.elem_iff] using hc, if_true]
    refine congrArg (fun z => (p.1, z)) ?_
    ring
  · simp only [show p.2.deps.contains c = false by simpa [List.elem_iff] using hc,
      Bool.false_eq_true, if_false]
    rw [popCnt_append_single]
    simp only [show p.2.deps.contains c = false by simpa [List.elem_iff] using hc,
      Bool.false_eq_true, if_false]
    refine congrArg (fun z => (p.1, z)) ?_
    ring

lemma isKey_of_mem_keys {g : Graph} {d : String} (h : d ∈ keys g) : isKey g d = true := by
  simp [isKey, h]

lemma allDeps_of_val_nonpos {g : Graph} (hnodup : (keys g).Nodup) {p : String × Svc}
    (hp : p ∈ g) {done : List String} (hdn : done.Nodup)
    (hdk : ∀ x ∈ done, x ∈ keys g)
    (hval : initD g p - (popCnt done p.2.deps : Int) ≤ 0) :
    AllDepsDone g done p.1 := by
  have hA : (done.filter fun d => p.2.deps.contains d).Nodup := hdn.filter _
  have hAB : (done.filter fun d => p.2.deps.contains d) ⊆
      p.2.deps.filter fun d => isKey g d := by
    intro x hx
    obtain ⟨hx1, hx2⟩ := List.mem_filter.mp hx
    refine List.mem_filter.mpr ⟨by simpa [List.elem_iff] using hx2, ?_⟩
    exact isKey_of_mem_keys (hdk x hx1)
  have hsub : (done.filter fun d => p.2.deps.contains d).Subperm
      (p.2.deps.filter fun d => isKey g d) :=
    List.subperm_of_subset hA hAB
  have hlen : (p.2.deps.filter fun d => isKey g d).length ≤
      (done.filter fun d => p.2.deps.contains d).length := by
    unfold initD popCnt at hval
    omega
  have hperm := hsub.perm_of_length_le hlen
  intro d hd hk
  rw [depsOf_eq_lookupD, lookupD_of_mem_nodup hnodup hp] at hd
  have hdB : d ∈ p.2.deps.filter fun d => isKey g d := List.mem_filter.mpr ⟨hd, hk⟩
  have hdA : d ∈ done.filter fun d => p.2.deps.contains d := hperm.mem_iff.mpr hdB
  exact List.mem_of_mem_filter hdA

lemma mem_kahnNewly_iff {g : Graph} (hnodup : (keys g).Nodup) {done : List String}
    {c s : String} :
    s ∈ kahnNewly g (degOf g done) c ↔
      ∃ p, p ∈ g ∧ p.1 = s ∧ c ∈ p.2.deps ∧
        initD g p - (popCnt done p.2.deps : Int) = 1 := by
  unfold kahnNewly
  simp only [List.mem_map, List.mem_filter]
  constructor
  · rintro ⟨p, ⟨hp, hcond⟩, rfl⟩
    rw [degOf_lookup hnodup hp done] at hcond
    simp only [Bool.and_eq_true, beq_iff_eq] at hcond
    exact ⟨p, hp, rfl, by simpa [List.elem_iff] using hcond.1, hcond.2⟩
  · rintro ⟨p, hp, rfl, hc, hval⟩
    refine ⟨p, ⟨hp, ?_⟩, rfl⟩
    rw [degOf_lookup hnodup hp done]
    simp [List.elem_iff, hc, hval]

lemma sumPos_map_le {l : List (String × Svc)} {f f' : (String × Svc) → Int}
    {pr : (String × Svc) → Bool}
    (h : ∀ p ∈ l, (f' p).toNat ≤ (f p).toNat ∧
      (pr p = true → (f' p).toNat + 1 ≤ (f p).toNat)) :
    ((l.map fun p => (f' p).toNat).sum + (l.filter pr).length ≤
      (l.map fun p => (f p).toNat).sum) := by
  induction l with
  | nil => simp
  | cons q t ih =>
    have hq := h q (List.mem_cons_self _ _)
    have ht := ih fun p hp => h p (List.mem_cons_of_mem _ hp)
    simp only [List.map_cons, List.sum_cons, List.filter_cons]
    by_cases hpr : pr q = true
    · simp only [hpr, if_true, List.length_cons]
      have := hq.2 hpr
      omega
    · simp only [hpr, Bool.false_eq_true, if_false]
      have := hq.1
      omega

lemma sumPos_degOf_eq (g : Graph) (done : List String) :
    sumPos (degOf g done) =
      (g.map fun p => (initD g p - (popCnt done p.2.deps : Int)).toNat).sum := by
  unfold sumPos degOf
  rw [List.map_map]
  rfl

lemma sumPos_dec_le {g : Graph} (hnodup : (keys g).Nodup) (done : List String) (c : String) :
    sumPos (degOf g (done ++ [c])) + (kahnNewly g (degOf g done) c).length ≤
      sumPos (degOf g done) := by
  rw [sumPos_degOf_eq, sumPos_degOf_eq]
  have hlen : (kahnNewly g (degOf g done) c).length =
      (g.filter fun p => p.2.deps.contains c && degLookup (degOf g done) p.1 == 1).length := by
    unfold kahnNewly
    rw [List.length_map]
  rw [hlen]
  refine sumPos_map_le ?_
  intro p hp
  have hval := degOf_lookup hnodup hp done
  have hpc := popCnt_append_single done p.2.deps c
  constructor
  · refine Int.toNat_le_toNat ?_
    rw [hpc]
    by_cases hc : p.2.deps.contains c <;> simp [hc] <;> omega
  · intro hpr
    simp only [Bool.and_eq_true, beq_iff_eq] at hpr
    rw [hval] at hpr
    rw [hpc]
    simp only [hpr.1, if_true]
    rw [show initD g p - (↑(popCnt done p.2.deps) + 1) =
      (initD g p - ↑(popCnt done p.2.deps)) - 1 by ring, hpr.2]
    simp

lemma val_nonpos_of_allDeps {g : Graph} {p : String × Svc}
    (hdeps : p.2.deps.Nodup) {done : List String}
    (hall : ∀ d ∈ p.2.deps, isKey g d = true → d ∈ done) :
    initD g p - (popCnt done p.2.deps : Int) ≤ 0 := by
  have hBn : (p.2.deps.filter fun d => isKey g d).Nodup := hdeps.filter _
  have hBA : (p.2.deps.filter fun d => isKey g d) ⊆
      done.filter fun d => p.2.deps.contains d := by
    intro x hx
    obtain ⟨hx1, hx2⟩ := List.mem_filter.mp hx
    exact List.mem_filter.mpr ⟨hall x hx1 hx2, by simpa [List.elem_iff] using hx1⟩
  have := (List.subperm_of_subset hBn hBA).length_le
  unfold initD popCnt
  omega

lemma kahn_done_perm {g : Graph} (hnodup : (keys g).Nodup) (hdup : DupFree g)
    (hacyc : ¬ HasCycle g) {done : List String}
    (hdn : done.Nodup) (hdk : ∀ x ∈ done, x ∈ keys g)
    (hzero : ∀ p, p ∈ g → initD g p - (popCnt done p.2.deps : Int) ≤ 0 → p.1 ∈ done) :
    done.Perm (keys g) := by
  have hkeys : ∀ k ∈ keys g, k ∈ done := by
    intro k hk
    by_contra hkd
    have hLne : (keys g).filter (fun x => !done.contains x) ≠ [] := by
      intro hc
      have : k ∈ (keys g).filter fun x => !done.contains x :=
        List.mem_filter.mpr ⟨hk, by simpa [List.elem_iff] using hkd⟩
      rw [hc] at this
      simp at this
    obtain ⟨s, hs, hsink⟩ := exists_sink hacyc hLne
    obtain ⟨hs1, hs2⟩ := List.mem_filter.mp hs
    have hs2' : s ∉ done := by simpa [List.elem_iff] using hs2
    obtain ⟨p, hp, hp1⟩ := List.mem_map.mp hs1
    have hvalpos : ¬ (initD g p - (popCnt done p.2.deps : Int) ≤ 0) := by
      intro hc
      exact hs2' (hp1 ▸ hzero p hp hc)
    have hex : ∃ d ∈ p.2.deps, isKey g d = true ∧ d ∉ done := by
      by_contra hcon
      push_neg at hcon
      refine hvalpos (val_nonpos_of_allDeps (hdup p hp) ?_)
      intro d hd hkd'
      exact hcon d hd hkd'
    obtain ⟨d, hd, hdk', hddone⟩ := hex
    have hedge : Edge g s d := ⟨p.2, hp1 ▸ lookup_of_mem_nodup hnodup hp, hd⟩
    have hdL : d ∈ (keys g).filter fun x => !done.contains x := by
      refine List.mem_filter.mpr ⟨by simpa [isKey] using hdk', ?_⟩
      simpa [List.elem_iff] using hddone
    exact hsink d hedge hdL
  refine (List.perm_ext_iff_of_nodup hdn hnodup).mpr ?_
  intro a
  exact ⟨fun h => hdk a h, fun h => hkeys a h⟩

lemma kahnLoop_main {g : Graph} (hnodup : (keys g).Nodup) (hdup : DupFree g)
    (hacyc : ¬ HasCycle g) :
    ∀ fuel q done,
      fuel ≥ q.length + sumPos (degOf g done) →
      (∀ s ∈ q, AllDepsDone g done s) →
      (∀ s ∈ q, s ∈ keys g) →
      q.Nodup → done.Nodup → (∀ x ∈ done, x ∉ q) →
      (∀ x ∈ done, x ∈ keys g) →
      (∀ p, p ∈ g → (p.1 ∈ done ∨ p.1 ∈ q) →
        initD g p - (popCnt done p.2.deps : Int) ≤ 0) →
      (∀ p, p ∈ g → initD g p - (popCnt done p.2.deps : Int) ≤ 0 →
        p.1 ∈ done ∨ p.1 ∈ q) →
      OkWaves g done (kahnLoop g fuel q (degOf g done)) ∧
        (done ++ (kahnLoop g fuel q (degOf g done)).flatten).Perm (keys g) := by
  intro fuel
  induction fuel with
  | zero =>
    intro q done hfuel hq hqk hqn hdn hdisj hdk hneg hzero
    have hq0 : q = [] := List.length_eq_zero.mp (by omega)
    subst hq0
    simp only [kahnLoop, List.flatten_nil, List.append_nil]
    exact ⟨trivial, kahn_done_perm hnodup hdup hacyc hdn hdk
      (fun p hp hv => (hzero p hp hv).resolve_right (by simp))⟩
  | succ fuel ih =>
    intro q done hfuel hq hqk hqn hdn hdisj hdk hneg hzero
    rcases q with _ | ⟨c, q'⟩
    · simp only [kahnLoop, List.flatten_nil, List.append_nil]
      exact ⟨trivial, kahn_done_perm hnodup hdup hacyc hdn hdk
        (fun p hp hv => (hzero p hp hv).resolve_right (by simp))⟩
    · have hcq : c ∈ keys g := hqk c (List.mem_cons_self _ _)
      have hcd : c ∉ done := fun hx => hdisj c hx (List.mem_cons_self _ _)
      have hcq' : c ∉ q' := (List.nodup_cons.mp hqn).1
      have hqn' : q'.Nodup := (List.nodup_cons.mp hqn).2
      have hdn' : (done ++ [c]).Nodup := by
        refine List.Nodup.append hdn (List.nodup_singleton c) ?_
        intro x hx hx'
        rcases List.mem_singleton.mp hx' with rfl
        exact hcd hx
      have hdk' : ∀ x ∈ done ++ [c], x ∈ keys g := by
        intro x hx
        rcases List.mem_append.mp hx with h | h
        · exact hdk x h
        · rcases List.mem_singleton.mp h with rfl
          exact hcq
      have hvalstep : ∀ p, p ∈ g →
          initD g p - (popCnt (done ++ [c]) p.2.deps : Int) =
            (initD g p - (popCnt done p.2.deps : Int)) -
              (if p.2.deps.contains c then 1 else 0) := by
        intro p _
        rw [popCnt_append_single]
        ring
      -- members of the newly enqueued list
      have hnewly : ∀ s ∈ kahnNewly g (degOf g done) c,
          ∃ p, p ∈ g ∧ p.1 = s ∧ c ∈ p.2.deps ∧
            initD g p - (popCnt done p.2.deps : Int) = 1 :=
        fun s hs => (mem_kahnNewly_iff hnodup).mp hs
      have hnk : ∀ s ∈ kahnNewly g (degOf g done) c, s ∈ keys g := by
        intro s hs
        obtain ⟨p, hp, hp1, _, _⟩ := hnewly s hs
        exact hp1 ▸ List.mem_map_of_mem Prod.fst hp
      have hnn : (kahnNewly g (degOf g done) c).Nodup := by
        unfold kahnNewly
        exact List.Nodup.sublist ((List.filter_sublist g).map Prod.fst) hnodup
      have hnotq : ∀ s, (s ∈ done ∨ s ∈ c :: q') →
          s ∉ kahnNewly g (degOf g done) c := by
        intro s hsdq hs
        obtain ⟨p, hp, hp1, _, hval⟩ := hnewly s hs
        have := hneg p hp (by rw [hp1]; exact hsdq)
        omega
      -- invariants for the recursive call
      have hq2 : ∀ s ∈ q' ++ kahnNewly g (degOf g done) c,
          AllDepsDone g (done ++ [c]) s := by
        intro s hs
        rcases List.mem_append.mp hs with h | h
        · intro d hd hk
          exact List.mem_append_left _ (hq s (List.mem_cons_of_mem _ h) d hd hk)
        · obtain ⟨p, hp, hp1, hcdep, hval⟩ := hnewly s h
          have hval' : initD g p - (popCnt (done ++ [c]) p.2.deps : Int) ≤ 0 := by
            rw [hvalstep p hp]
            simp only [show p.2.deps.contains c = true by simpa [List.elem_iff] using hcdep,
              if_true]
            omega
          exact hp1 ▸ allDeps_of_val_nonpos hnodup hp hdn' hdk' hval'
      have hqk2 : ∀ s ∈ q' ++ kahnNewly g (degOf g done) c, s ∈ keys g := by
        intro s hs
        rcases List.mem_append.mp hs with h | h
        · exact hqk s (List.mem_cons_of_mem _ h)
        · exact hnk s h
      have hqn2 : (q' ++ kahnNewly g (degOf g done) c).Nodup := by
        refine List.Nodup.append hqn' hnn ?_
        intro x hx hx'
        exact hnotq x (Or.inr (List.mem_cons_of_mem _ hx)) hx'
      have hdisj2 : ∀ x ∈ done ++ [c], x ∉ q' ++ kahnNewly g (degOf g done) c := by
        intro x hx hx'
        rcases List.mem_append.mp hx' with h | h
        · rcases List.mem_append.mp hx with h1 | h1
          · exact hdisj x h1 (List.mem_cons_of_mem _ h)
          · rcases List.mem_singleton.mp h1 with rfl
            exact hcq' h
        · rcases List.mem_append.mp hx with h1 | h1
          · exact hnotq x (Or.inl h1) h
          · rcases List.mem_singleton.mp h1 with rfl
            exact hnotq x (Or.inr (List.mem_cons_self _ _)) h
      have hneg2 : ∀ p, p ∈ g →
          (p.1 ∈ done ++ [c] ∨ p.1 ∈ q' ++ kahnNewly g (degOf g done) c) →
          initD g p - (popCnt (done ++ [c]) p.2.deps : Int) ≤ 0 := by
        intro p hp hmem
        rw [hvalstep p hp]
        have hifnn : (0 : Int) ≤ if p.2.deps.contains c then 1 else 0 := by
          split <;> omega
        rcases hmem with h | h
        · rcases List.mem_append.mp h with h1 | h1
          · have := hneg p hp (Or.inl h1)
            omega
          · rcases List.mem_singleton.mp h1 with heq
            have := hneg p hp (Or.inr (heq ▸ List.mem_cons_self c q'))
            omega
        · rcases List.mem_append.mp h with h1 | h1
          · have := hneg p hp (Or.inr (List.mem_cons_of_mem _ h1))
            omega
          · obtain ⟨p', hp', hp'1, hcdep, hval⟩ := hnewly p.1 h1
            have hpe : p' = p := entry_unique hnodup hp' hp hp'1
            subst hpe
            simp only [show p'.2.deps.contains c = true by
              simpa [List.elem_iff] using hcdep, if_true]
            omega
      have hzero2 : ∀ p, p ∈ g →
          initD g p - (popCnt (done ++ [c]) p.2.deps : Int) ≤ 0 →
          p.1 ∈ done ++ [c] ∨ p.1 ∈ q' ++ kahnNewly g (degOf g done) c := by
        intro p hp hval'
        rw [hvalstep p hp] at hval'
        by_cases hv : initD g p - (popCnt done p.2.deps : Int) ≤ 0
        · rcases hzero p hp hv with h | h
          · exact Or.inl (List.mem_append_left _ h)
          · rcases List.mem_cons.mp h with h1 | h1
            · exact Or.inl (List.mem_append_right _ (h1 ▸ List.mem_singleton_self _))
            · exact Or.inr (List.mem_append_left _ h1)
        · by_cases hc : p.2.deps.contains c
          · simp only [hc, if_true] at hval'
            have hval1 : initD g p - (popCnt done p.2.deps : Int) = 1 := by omega
            refine Or.inr (List.mem_append_right _ ?_)
            refine (mem_kahnNewly_iff hnodup).mpr ⟨p, hp, rfl, ?_, hval1⟩
            simpa [List.elem_iff] using hc
          · simp only [hc, Bool.false_eq_true, if_false] at hval'
            omega
      have hfuel2 : fuel ≥ (q' ++ kahnNewly g (degOf g done) c).length +
          sumPos (degOf g (done ++ [c])) := by
        have hdec := sumPos_dec_le hnodup done c
        rw [List.length_append]
        simp only [List.length_cons] at hfuel
        omega
      obtain ⟨ihok, ihperm⟩ := ih (q' ++ kahnNewly g (degOf g done) c) (done ++ [c])
        hfuel2 hq2 hqk2 hqn2 hdn' hdisj2 hdk' hneg2 hzero2
      simp only [kahnLoop, kahnDec_degOf hnodup]
      constructor
      · refine ⟨?_, ihok⟩
        intro s hs d hd hk
        rcases List.mem_singleton.mp hs with rfl
        rw [← depsOf_eq_lookupD] at hd
        exact hq s (List.mem_cons_self _ _) d hd hk
      · rw [List.flatten_cons, ← List.append_assoc]
        exact ihperm

lemma mem_initQueue_iff {g : Graph} {s : String} :
    s ∈ (((degOf g []).filter fun e => e.2 == 0).map Prod.fst) ↔
      ∃ p, p ∈ g ∧ p.1 = s ∧ initD g p = 0 := by
  unfold degOf
  rw [List.filter_map, List.map_map]
  simp only [List.mem_map, List.mem_filter, Function.comp]
  constructor
  · rintro ⟨p, ⟨hp, hc⟩, rfl⟩
    refine ⟨p, hp, rfl, ?_⟩
    simpa [popCnt] using hc
  · rintro ⟨p, hp, rfl, h0⟩
    exact ⟨p, ⟨hp, by simpa [popCnt] using h0⟩, rfl⟩

lemma initQueue_sublist_keys (g : Graph) :
    (((degOf g []).filter fun e => e.2 == 0).map Prod.fst).Sublist (keys g) := by
  unfold degOf
  rw [List.filter_map, List.map_map]
  have h1 : (Prod.fst ∘ fun p : String × Svc =>
      (p.1, initD g p - (popCnt [] p.2.deps : Int))) = Prod.fst := by
    funext p
    rfl
  rw [h1]
  exact (List.filter_sublist g).map Prod.fst

lemma valid_no_cycle {g : Graph} (h : (validate_dependencies g).1 = true) : ¬ HasCycle g := by
  intro hc
  have hcc : has_circular_dependencies g = true := (has_circular_iff g).mpr hc
  unfold validate_dependencies at h
  rw [hcc] at h
  simp at h

lemma sequential_order_main {g : Graph} (hnodup : (keys g).Nodup) (hdup : DupFree g)
    (hacyc : ¬ HasCycle g) :
    OkWaves g [] (_get_sequential_order g) ∧
      (_get_sequential_order g).flatten.Perm (keys g) := by
  unfold _get_sequential_order
  rw [initInDeg_eq_degOf]
  have hq : ∀ s ∈ ((degOf g []).filter fun e => e.2 == 0).map Prod.fst,
      AllDepsDone g [] s := by
    intro s hs
    obtain ⟨p, hp, rfl, h0⟩ := mem_initQueue_iff.mp hs
    intro d hd hk
    rw [depsOf_eq_lookupD, lookupD_of_mem_nodup hnodup hp] at hd
    have hfil : (p.2.deps.filter fun d => isKey g d) = [] := by
      unfold initD at h0
      have : (p.2.deps.filter fun d => isKey g d).length = 0 := by omega
      exact List.length_eq_zero.mp this
    have : d ∈ p.2.deps.filter fun d => isKey g d := List.mem_filter.mpr ⟨hd, hk⟩
    rw [hfil] at this
    cases this
  have hqk : ∀ s ∈ ((degOf g []).filter fun e => e.2 == 0).map Prod.fst, s ∈ keys g :=
    fun s hs => (initQueue_sublist_keys g).mem hs
  have hqn : (((degOf g []).filter fun e => e.2 == 0).map Prod.fst).Nodup :=
    List.Nodup.sublist (initQueue_sublist_keys g) hnodup
  have hneg : ∀ p, p ∈ g →
      (p.1 ∈ ([] : List String) ∨ p.1 ∈ ((degOf g []).filter fun e => e.2 == 0).map Prod.fst) →
      initD g p - (popCnt [] p.2.deps : Int) ≤ 0 := by
    rintro p hp (h | h)
    · cases h
    · obtain ⟨p', hp', hp'1, h0⟩ := mem_initQueue_iff.mp h
      have : p' = p := entry_unique hnodup hp' hp hp'1
      subst this
      simp [popCnt, h0]
  have hzero : ∀ p, p ∈ g → initD g p - (popCnt [] p.2.deps : Int) ≤ 0 →
      p.1 ∈ ([] : List String) ∨ p.1 ∈ ((degOf g []).filter fun e => e.2 == 0).map Prod.fst := by
    intro p hp hv
    refine Or.inr (mem_initQueue_iff.mpr ⟨p, hp, rfl, ?_⟩)
    have hnn : (0 : Int) ≤ initD g p := by
      unfold initD
      omega
    simp only [popCnt, List.filter_nil, List.length_nil, Nat.cast_zero, sub_zero] at hv
    omega
  obtain ⟨hok, hperm⟩ := kahnLoop_main hnodup hdup hacyc
    ((((degOf g []).filter fun e => e.2 == 0).map Prod.fst).length + sumPos (degOf g []) + 1)
    (((degOf g []).filter fun e => e.2 == 0).map Prod.fst) []
    (by omega) hq hqk hqn List.nodup_nil (by simp) (by simp) hneg hzero
  exact ⟨hok, by simpa using hperm⟩

lemma kahnLoop_okWaves {g : Graph} (hnodup : (keys g).Nodup) :
    ∀ fuel q done,
      (∀ s ∈ q, AllDepsDone g done s) →
      (∀ s ∈ q, s ∈ keys g) →
      q.Nodup → done.Nodup → (∀ x ∈ done, x ∉ q) →
      (∀ x ∈ done, x ∈ keys g) →
      (∀ p, p ∈ g → (p.1 ∈ done ∨ p.1 ∈ q) →
        initD g p - (popCnt done p.2.deps : Int) ≤ 0) →
      OkWaves g done (kahnLoop g fuel q (degOf g done)) := by
  intro fuel
  induction fuel with
  | zero =>
    intro q done _ _ _ _ _ _ _
    simp only [kahnLoop]
    trivial
  | succ fuel ih =>
    intro q done hq hqk hqn hdn hdisj hdk hneg
    rcases q with _ | ⟨c, q'⟩
    · simp only [kahnLoop]
      trivial
    · have hcq : c ∈ keys g := hqk c (List.mem_cons_self _ _)
      have hcd : c ∉ done := fun hx => hdisj c hx (List.mem_cons_self _ _)
      have hcq' : c ∉ q' := (List.nodup_cons.mp hqn).1
      have hqn' : q'.Nodup := (List.nodup_cons.mp hqn).2
      have hdn' : (done ++ [c]).Nodup := by
        refine List.Nodup.append hdn (List.nodup_singleton c) ?_
        intro x hx hx'
        rcases List.mem_singleton.mp hx' with rfl
        exact hcd hx
      have hdk' : ∀ x ∈ done ++ [c], x ∈ keys g := by
        intro x hx
        rcases List.mem_append.mp hx with h | h
        · exact hdk x h
        · rcases List.mem_singleton.mp h with rfl
          exact hcq
      have hvalstep : ∀ p, p ∈ g →
          initD g p - (popCnt (done ++ [c]) p.2.deps : Int) =
            (initD g p - (popCnt done p.2.deps : Int)) -
              (if p.2.deps.contains c then 1 else 0) := by
        intro p _
        rw [popCnt_append_single]
        ring
      have hnewly : ∀ s ∈ kahnNewly g (degOf g done) c,
          ∃ p, p ∈ g ∧ p.1 = s ∧ c ∈ p.2.deps ∧
            initD g p - (popCnt done p.2.deps : Int) = 1 :=
        fun s hs => (mem_kahnNewly_iff hnodup).mp hs
      have hnk : ∀ s ∈ kahnNewly g (degOf g done) c, s ∈ keys g := by
        intro s hs
        obtain ⟨p, hp, hp1, _, _⟩ := hnewly s hs
        exact hp1 ▸ List.mem_map_of_mem Prod.fst hp
      have hnn : (kahnNewly g (degOf g done) c).Nodup := by
        unfold kahnNewly
        exact List.Nodup.sublist ((List.filter_sublist g).map Prod.fst) hnodup
      have hnotq : ∀ s, (s ∈ done ∨ s ∈ c :: q') →
          s ∉ kahnNewly g (degOf g done) c := by
        intro s hsdq hs
        obtain ⟨p, hp, hp1, _, hval⟩ := hnewly s hs
        have := hneg p hp (by rw [hp1]; exact hsdq)
        omega
      have hq2 : ∀ s ∈ q' ++ kahnNewly g (degOf g done) c,
          AllDepsDone g (done ++ [c]) s := by
        intro s hs
        rcases List.mem_append.mp hs with h | h
        · intro d hd hk
          exact List.mem_append_left _ (hq s (List.mem_cons_of_mem _ h) d hd hk)
        · obtain ⟨p, hp, hp1, hcdep, hval⟩ := hnewly s h
          have hval' : initD g p - (popCnt (done ++ [c]) p.2.deps : Int) ≤ 0 := by
            rw [hvalstep p hp]
            simp only [show p.2.deps.contains c = true by simpa [List.elem_iff] using hcdep,
              if_true]
            omega
          exact hp1 ▸ allDeps_of_val_nonpos hnodup hp hdn' hdk' hval'
      have hqk2 : ∀ s ∈ q' ++ kahnNewly g (degOf g done) c, s ∈ keys g := by
        intro s hs
        rcases List.mem_append.mp hs with h | h
        · exact hqk s (List.mem_cons_of_mem _ h)
        · exact hnk s h
      have hqn2 : (q' ++ kahnNewly g (degOf g done) c).Nodup := by
        refine List.Nodup.append hqn' hnn ?_
        intro x hx hx'
        exact hnotq x (Or.inr (List.mem_cons_of_mem _ hx)) hx'
      have hdisj2 : ∀ x ∈ done ++ [c], x ∉ q' ++ kahnNewly g (degOf g done) c := by
        intro x hx hx'
        rcases List.mem_append.mp hx' with h | h
        · rcases List.mem_append.mp hx with h1 | h1
          · exact hdisj x h1 (List.mem_cons_of_mem _ h)
          · rcases List.mem_singleton.mp h1 with rfl
            exact hcq' h
        · rcases List.mem_append.mp hx with h1 | h1
          · exact hnotq x (Or.inl h1) h
          · rcases List.mem_singleton.mp h1 with rfl
            exact hnotq x (Or.inr (List.mem_cons_self _ _)) h
      have hneg2 : ∀ p, p ∈ g →
          (p.1 ∈ done ++ [c] ∨ p.1 ∈ q' ++ kahnNewly g (degOf g done) c) →
          initD g p - (popCnt (done ++ [c]) p.2.deps : Int) ≤ 0 := by
        intro p hp hmem
        rw [hvalstep p hp]
        have hifnn : (0 : Int) ≤ if p.2.deps.contains c then 1 else 0 := by
          split <;> omega
        rcases hmem with h | h
        · rcases List.mem_append.mp h with h1 | h1
          · have := hneg p hp (Or.inl h1)
            omega
          · rcases List.mem_singleton.mp h1 with heq
            have := hneg p hp (Or.inr (heq ▸ List.mem_cons_self c q'))
            omega
        · rcases List.mem_append.mp h with h1 | h1
          · have := hneg p hp (Or.inr (List.mem_cons_of_mem _ h1))
            omega
          · obtain ⟨p', hp', hp'1, hcdep, hval⟩ := hnewly p.1 h1
            have hpe : p' = p := entry_unique hnodup hp' hp hp'1
            subst hpe
            simp only [show p'.2.deps.contains c = true by
              simpa [List.elem_iff] using hcdep, if_true]
            omega
      have ihok := ih (q' ++ kahnNewly g (degOf g done) c) (done ++ [c])
        hq2 hqk2 hqn2 hdn' hdisj2 hdk' hneg2
      simp only [kahnLoop, kahnDec_degOf hnodup]
      refine ⟨?_, ihok⟩
      intro s hs d hd hk
      rcases List.mem_singleton.mp hs with rfl
      rw [← depsOf_eq_lookupD] at hd
      exact hq s (List.mem_cons_self _ _) d hd hk

lemma sequential_order_okWaves {g : Graph} (hnodup : (keys g).Nodup) :
    OkWaves g [] (_get_sequential_order g) := by
  unfold _get_sequential_order
  rw [initInDeg_eq_degOf]
  have hq : ∀ s ∈ ((degOf g []).filter fun e => e.2 == 0).map Prod.fst,
      AllDepsDone g [] s := by
    intro s hs
    obtain ⟨p, hp, rfl, h0⟩ := mem_initQueue_iff.mp hs
    intro d hd hk
    rw [depsOf_eq_lookupD, lookupD_of_mem_nodup hnodup hp] at hd
    have hfil : (p.2.deps.filter fun d => isKey g d) = [] := by
      unfold initD at h0
      have : (p.2.deps.filter fun d => isKey g d).length = 0 := by omega
      exact List.length_eq_zero.mp this
    have : d ∈ p.2.deps.filter fun d => isKey g d := List.mem_filter.mpr ⟨hd, hk⟩
    rw [hfil] at this
    cases this
  have hneg : ∀ p, p ∈ g →
      (p.1 ∈ ([] : List String) ∨ p.1 ∈ ((degOf g []).filter fun e => e.2 == 0).map Prod.fst) →
      initD g p - (popCnt [] p.2.deps : Int) ≤ 0 := by
    rintro p hp (h | h)
    · cases h
    · obtain ⟨p', hp', hp'1, h0⟩ := mem_initQueue_iff.mp h
      have : p' = p := entry_unique hnodup hp' hp hp'1
      subst this
      simp [popCnt, h0]
  exact kahnLoop_okWaves hnodup _ _ []
    hq (fun s hs => (initQueue_sublist_keys g).mem hs)
    (List.Nodup.sublist (initQueue_sublist_keys g) hnodup)
    List.nodup_nil (by simp) (by simp) hneg

lemma frontier_wavesDepsOK {g : Graph} {key : Svc → Nat} {fuel : Nat}
    {deployed remaining : List String} {ws : List (List String)}
    (h : frontierLoop g key fuel deployed remaining = some ws) (hd : deployed = []) :
    wavesDepsOK g ws = true := by
  subst hd
  exact okWaves_depsOK (frontierLoop_okWaves g key fuel [] remaining ws h)

/-- C1: under every strategy, every wave sequence the planner returns places
each declared dependency of a wave-`i` member in some earlier wave `j < i`
(`wavesDepsOK` is precisely that check); for the sequential strategy the
graph's keys must be distinct, as in a Python dict. -/
theorem c1_dependencies_in_earlier_waves :
    (∀ (g : Graph) (ws : List (List String)),
      _get_parallel_optimized_order g = some ws → wavesDepsOK g ws = true) ∧
    (∀ (g : Graph) (ws : List (List String)),
      _get_priority_based_order g = some ws → wavesDepsOK g ws = true) ∧
    (∀ g : Graph, (keys g).Nodup → wavesDepsOK g (_get_sequential_order g) = true) := by
  refine ⟨?_, ?_, ?_⟩
  · intro g ws h
    exact frontier_wavesDepsOK h rfl
  · intro g ws h
    exact frontier_wavesDepsOK h rfl
  · intro g hnodup
    exact okWaves_depsOK (sequential_order_okWaves hnodup)

/-- Witness for C1 at the two-service chain `b → a`. -/
theorem c1_dependencies_in_earlier_waves_witness :
    (_get_parallel_optimized_order twoChainGraph = some [["a"], ["b"]] ∧
      wavesDepsOK twoChainGraph [["a"], ["b"]] = true) ∧
    (_get_priority_based_order twoChainGraph = some [["a"], ["b"]] ∧
      wavesDepsOK twoChainGraph [["a"], ["b"]] = true) ∧
    ((keys twoChainGraph).Nodup ∧
      wavesDepsOK twoChainGraph (_get_sequential_order twoChainGraph) = true) :=
  ⟨⟨by decide, c1_dependencies_in_earlier_waves.1 twoChainGraph [["a"], ["b"]] (by decide)⟩,
   ⟨by decide, c1_dependencies_in_earlier_waves.2.1 twoChainGraph [["a"], ["b"]] (by decide)⟩,
   ⟨by decide, c1_dependencies_in_earlier_waves.2.2 twoChainGraph (by decide)⟩⟩

/-- C2 (amended): for every graph that passes validation, has distinct keys
and duplicate-free dependency lists, each strategy's wave sequence flattens
to a permutation of the service set — the union of the waves is exactly the
selected set and no service occurs twice. -/
theorem c2_wave_union_is_selected_set (g : Graph)
    (hvalid : (validate_dependencies g).1 = true)
    (hnodup : (keys g).Nodup) (hdup : DupFree g) :
    (∃ ws, _get_parallel_optimized_order g = some ws ∧ ws.flatten.Perm (keys g)) ∧
    (∃ ws, _get_priority_based_order g = some ws ∧ ws.flatten.Perm (keys g)) ∧
    (_get_sequential_order g).flatten.Perm (keys g) := by
  have hacyc : ¬ HasCycle g := valid_no_cycle hvalid
  refine ⟨?_, ?_, ?_⟩
  · obtain ⟨ws, hws⟩ := frontierLoop_complete g (·.group) hacyc (keys g).length (keys g) []
      (le_refl _) (fun k hk => Or.inr hk) (fun s hs => hs)
    exact ⟨ws, hws, frontierLoop_join_perm g (·.group) _ _ _ _ hws⟩
  · obtain ⟨ws, hws⟩ := frontierLoop_complete g (·.priority) hacyc (keys g).length (keys g) []
      (le_refl _) (fun k hk => Or.inr hk) (fun s hs => hs)
    exact ⟨ws, hws, frontierLoop_join_perm g (·.priority) _ _ _ _ hws⟩
  · exact (sequential_order_main hnodup hdup hacyc).2

/-- Witness for C2 at the two-service chain. -/
theorem c2_wave_union_is_selected_set_witness :
    ((validate_dependencies twoChainGraph).1 = true ∧ (keys twoChainGraph).Nodup ∧
      DupFree twoChainGraph) ∧
    ((∃ ws, _get_parallel_optimized_order twoChainGraph = some ws ∧
        ws.flatten.Perm (keys twoChainGraph)) ∧
      (∃ ws, _get_priority_based_order twoChainGraph = some ws ∧
        ws.flatten.Perm (keys twoChainGraph)) ∧
      (_get_sequential_order twoChainGraph).flatten.Perm (keys twoChainGraph)) :=
  ⟨⟨by decide, by decide, by unfold DupFree; decide⟩,
    c2_wave_union_is_selected_set twoChainGraph (by decide) (by decide)
      (by unfold DupFree; decide)⟩

/-- Counterexample for C2 as stated: `dupDepsGraph` passes validation (it is
acyclic with no missing references, `b` merely lists the dependency `a`
twice), yet the sequential strategy silently drops `b`: the waves flatten to
`["a"]`, not a permutation of the selected set `["a", "b"]`. -/
theorem c2_wave_union_counterexample :
    (validate_dependencies dupDepsGraph).1 = true ∧
    (keys dupDepsGraph).Nodup ∧
    _get_sequential_order dupDepsGraph = [["a"]] ∧
    ¬ (_get_sequential_order dupDepsGraph).flatten.Perm (keys dupDepsGraph) := by
  refine ⟨by decide, by decide, by decide, ?_⟩
  intro h
  have := h.length_eq
  simp at this
  rw [show _get_sequential_order dupDepsGraph = [["a"]] by decide] at this
  simp [dupDepsGraph, keys] at this

/-- C6 (amended): the validator emits one missing-dependency error per
DISTINCT missing dependency id — identifying the missing id only, not the
referring service — aggregated in a single pass: membership in the result is
exactly "some declared service lists `d` and `d` is not a graph key", the
result has no duplicates, and the graph `{A: deps=[Z]}` yields exactly the
single error naming `Z`. -/
theorem c6_missing_dependency_errors :
    (∀ (g : Graph) (d : String), d ∈ check_missing_dependencies g ↔
      ((∃ p, p ∈ g ∧ d ∈ p.2.deps) ∧ isKey g d = false)) ∧
    (∀ g : Graph, (check_missing_dependencies g).Nodup) ∧
    check_missing_dependencies [("A", ⟨["Z"], 1, 1, 60⟩)] = ["Z"] ∧
    (validate_dependencies [("A", ⟨["Z"], 1, 1, 60⟩)]).2 = ["Missing dependency: Z"] := by
  refine ⟨?_, ?_, by decide, by decide⟩
  · intro g d
    unfold check_missing_dependencies
    rw [List.mem_dedup, List.mem_filter]
    simp only [List.mem_flatMap, Bool.not_eq_true']
  · intro g
    exact List.nodup_dedup _

/-- Counterexample for C6 as stated: two services `A` and `B` both declare
the undeclared dependency `Z` — two (service, dependency) pairs with a
missing dependency — yet the validator emits a single error (it deduplicates
by dependency id and never records the referring service). -/
theorem c6_missing_dependency_counterexample :
    (check_missing_dependencies missingPairGraph).length = 1 ∧
    ((missingPairGraph.flatMap fun p => p.2.deps).filter
      fun d => !isKey missingPairGraph d).length = 2 := by
  decide

/-- C8 (amended): the rollback resolver is a total function returning the
deployed services from the configured list first, in configured order (a
sublist of the configuration), followed by exactly the deployed services
absent from the configuration, each once, in whatever order the set
materialisation enumerated them — that order is an input of the run, not a
fixed function of the configuration and deployed set; the spec's example
`[D,C,B,A]` with deployed `{A,B}` yields `[B,A]` under every enumeration,
because its tail set is empty. -/
theorem c8_rollback_order_structure :
    (∀ cfg dep tail : List String, RollbackTail cfg dep tail →
      ∃ pre, get_rollback_order cfg dep tail = pre ++ tail ∧
        pre.Sublist cfg ∧
        (∀ x, x ∈ pre ↔ x ∈ cfg ∧ x ∈ dep) ∧
        (∀ x, x ∈ tail ↔ x ∈ dep ∧ x ∉ cfg)) ∧
    (∀ tail : List String, RollbackTail ["D", "C", "B", "A"] ["A", "B"] tail →
      get_rollback_order ["D", "C", "B", "A"] ["A", "B"] tail = ["B", "A"]) := by
  constructor
  · intro cfg dep tail htail
    refine ⟨cfg.filter fun s => dep.contains s, rfl, List.filter_sublist cfg, ?_, ?_⟩
    · intro x
      rw [List.mem_filter]
      simp [List.elem_iff]
    · intro x
      constructor
      · intro hx
        obtain ⟨hx1, hx2⟩ := htail.2.1 x hx
        refine ⟨hx1, ?_⟩
        intro hc
        exact hx2 (List.mem_filter.mpr ⟨hc, by simpa [List.elem_iff] using hx1⟩)
      · rintro ⟨hx1, hx2⟩
        refine htail.2.2 x hx1 ?_
        intro hc
        exact hx2 (List.mem_of_mem_filter hc)
  · intro tail htail
    have hnil : tail = [] := by
      rw [List.eq_nil_iff_forall_not_mem]
      intro x hx
      obtain ⟨hx1, hx2⟩ := htail.2.1 x hx
      refine hx2 ?_
      have hro : (["D", "C", "B", "A"].filter fun s =>
          (["A", "B"] : List String).contains s) = ["B", "A"] := by decide
      rw [hro]
      simp only [List.mem_cons, List.mem_singleton, List.not_mem_nil, or_false] at hx1 ⊢
      tauto
    rw [hnil]
    decide

/-- Witness for C8 at the spec's example, with the (unique, empty) valid
enumeration of its tail set. -/
theorem c8_rollback_order_structure_witness :
    RollbackTail ["D", "C", "B", "A"] ["A", "B"] [] ∧
    get_rollback_order ["D", "C", "B", "A"] ["A", "B"] [] = ["B", "A"] :=
  ⟨by unfold RollbackTail; decide,
    c8_rollback_order_structure.2 [] (by unfold RollbackTail; decide)⟩

/-- Counterexample for C8 as stated: with an empty configured list and both
`A` and `B` deployed, `[A, B]` and `[B, A]` are both valid materialisations
of the set difference the source builds the tail from (Python's string-set
iteration order is hash-randomised, not fixed), and they yield different
rollback orders — the tail is not in a fixed deterministic order determined
by the inputs. -/
theorem c8_rollback_order_counterexample :
    RollbackTail [] ["A", "B"] ["A", "B"] ∧
    RollbackTail [] ["A", "B"] ["B", "A"] ∧
    get_rollback_order [] ["A", "B"] ["A", "B"] = ["A", "B"] ∧
    get_rollback_order [] ["A", "B"] ["B", "A"] = ["B", "A"] ∧
    (["A", "B"] : List String) ≠ ["B", "A"] := by
  refine ⟨?_, ?_, by decide, by decide, by decide⟩
  · unfold RollbackTail
    decide
  · unfold RollbackTail
    decide

lemma frontierLoop_waves_nonempty (g : Graph) (key : Svc → Nat) :
    ∀ fuel deployed remaining ws,
      frontierLoop g key fuel deployed remaining = some ws →
      ∀ w ∈ ws, w ≠ [] := by
  intro fuel
  induction fuel with
  | zero =>
    intro deployed remaining ws h
    rw [frontierLoop] at h
    by_cases he : remaining.isEmpty
    · simp only [he, if_true] at h
      cases h
      simp
    · simp [he] at h
  | succ fuel ih =>
    intro deployed remaining ws h
    rw [frontierLoop] at h
    by_cases he : remaining.isEmpty
    · simp only [he, if_true] at h
      cases h
      simp
    · simp only [he, if_false, Bool.false_eq_true] at h
      rcases hmin : ((deplOf g deployed remaining).map fun s => key (lookupD g s)).min?
        with _ | m
      · rw [hmin] at h
        cases h
      · rw [hmin, Option.some_bind] at h
        rcases hrec : frontierLoop g key fuel (deployed ++ waveOf g key deployed remaining m)
            (remaining.filter fun s => !(waveOf g key deployed remaining m).contains s)
          with _ | ws'
        · rw [hrec] at h
          cases h
        · rw [hrec, Option.map_some'] at h
          cases h
          intro w hw
          rcases List.mem_cons.mp hw with h1 | h1
          · subst h1
            have hmmem : m ∈ (deplOf g deployed remaining).map fun s => key (lookupD g s) :=
              List.min?_mem (fun a b => min_choice a b) hmin
            obtain ⟨x, hx, hxm⟩ := List.mem_map.mp hmmem
            intro hc
            have : x ∈ waveOf g key deployed remaining m :=
              List.mem_filter.mpr ⟨hx, by simp [hxm]⟩
            rw [hc] at this
            cases this
          · exact ih _ _ _ hrec w h1

lemma mkWaveList_mem {g : Graph} {cap : Nat} :
    ∀ {ls : List (List String)} {n : Nat} {w : Wave}, w ∈ mkWaveList g cap n ls →
      w.services ∈ ls ∧ w.estimated_time = waveTime g w.services := by
  intro ls
  induction ls with
  | nil => intro n w hw; cases hw
  | cons l ls ih =>
    intro n w hw
    rcases List.mem_cons.mp hw with h | h
    · subst h
      exact ⟨List.mem_cons_self _ _, rfl⟩
    · obtain ⟨h1, h2⟩ := ih h
      exact ⟨List.mem_cons_of_mem _ h1, h2⟩

lemma max?_eq_foldl (a : Nat) (as : List Nat) :
    (a :: as).max? = some ((a :: as).foldl max 0) := by
  simp only [List.max?, List.foldl]
  rw [Nat.zero_max]

lemma waveTime_max? {g : Graph} {l : List String} (h : l ≠ []) :
    (l.map fun s => (lookupD g s).time).max? = some (waveTime g l) := by
  rcases l with _ | ⟨a, as⟩
  · exact absurd rfl h
  · unfold waveTime
    rw [List.map_cons]
    exact max?_eq_foldl _ _

lemma kahnLoop_singletons (g : Graph) :
    ∀ fuel q deg w, w ∈ kahnLoop g fuel q deg → ∃ c, w = [c] := by
  intro fuel
  induction fuel with
  | zero => intro q deg w hw; simp [kahnLoop] at hw
  | succ fuel ih =>
    intro q deg w hw
    rcases q with _ | ⟨c, q'⟩
    · simp [kahnLoop] at hw
    · simp only [kahnLoop] at hw
      rcases List.mem_cons.mp hw with h | h
      · exact ⟨c, h⟩
      · exact ih _ _ _ h

/-- C5: in every computed wave of the lambda planner, under each of the
three strategies, the recorded `estimated_time` is the maximum of the
members' `estimated_deploy_time` (waves are non-empty, so the maximum
exists); and the manager-side `_estimate_wave_time` likewise returns the
maximum of its implied per-service times on any non-empty wave. -/
theorem c5_wave_time_is_member_max :
    (∀ (g : Graph) (ws : List Wave), create_parallel_optimized_waves g = some ws →
      ∀ w ∈ ws, w.services ≠ [] ∧
        (w.services.map fun s => (lookupD g s).time).max? = some w.estimated_time) ∧
    (∀ (g : Graph) (ws : List Wave), create_priority_based_waves g = some ws →
      ∀ w ∈ ws, w.services ≠ [] ∧
        (w.services.map fun s => (lookupD g s).time).max? = some w.estimated_time) ∧
    (∀ (g : Graph), ∀ w ∈ create_sequential_waves g, w.services ≠ [] ∧
      (w.services.map fun s => (lookupD g s).time).max? = some w.estimated_time) ∧
    (∀ l : List String, l ≠ [] →
      (l.map svcDeployTime).max? = some (_estimate_wave_time l)) := by
  refine ⟨?_, ?_, ?_, ?_⟩
  · intro g ws h w hw
    unfold create_parallel_optimized_waves at h
    rcases hord : _get_parallel_optimized_order g with _ | ls
    · rw [hord] at h
      cases h
    · rw [hord, Option.map_some'] at h
      cases h
      obtain ⟨h1, h2⟩ := mkWaveList_mem hw
      have hne : w.services ≠ [] := frontierLoop_waves_nonempty g _ _ _ _ _ hord _ h1
      exact ⟨hne, h2 ▸ waveTime_max? hne⟩
  · intro g ws h w hw
    unfold create_priority_based_waves at h
    rcases hord : _get_priority_based_order g with _ | ls
    · rw [hord] at h
      cases h
    · rw [hord, Option.map_some'] at h
      cases h
      obtain ⟨h1, h2⟩ := mkWaveList_mem hw
      have hne : w.services ≠ [] := frontierLoop_waves_nonempty g _ _ _ _ _ hord _ h1
      exact ⟨hne, h2 ▸ waveTime_max? hne⟩
  · intro g w hw
    unfold create_sequential_waves at hw
    obtain ⟨h1, h2⟩ := mkWaveList_mem hw
    obtain ⟨c, hc⟩ := kahnLoop_singletons g _ _ _ _ h1
    have hne : w.services ≠ [] := by
      rw [hc]
      simp
    exact ⟨hne, h2 ▸ waveTime_max? hne⟩
  · intro l hl
    rcases l with _ | ⟨a, as⟩
    · exact absurd rfl hl
    · unfold _estimate_wave_time
      rw [List.map_cons, List.max?, List.foldl_cons]
    
      rw [List.foldl_map]
      have h60 : max 60 (svcDeployTime a) = svcDeployTime a := by
        unfold svcDeployTime
        split <;> omega
      rw [h60]

/-- Witness for C5 at the two-service chain. -/
theorem c5_wave_time_is_member_max_witness :
    (create_parallel_optimized_waves twoChainGraph =
        some [⟨1, ["a"], false, 1, 60⟩, ⟨2, ["b"], false, 1, 45⟩] ∧
      (⟨1, ["a"], false, 1, 60⟩ : Wave) ∈
        ([⟨1, ["a"], false, 1, 60⟩, ⟨2, ["b"], false, 1, 45⟩] : List Wave) ∧
      ((["a"].map fun s => (lookupD twoChainGraph s).time).max? = some 60)) ∧
    ((["x"] : List String) ≠ [] ∧
      ((["x"].map svcDeployTime).max? = some (_estimate_wave_time ["x"]))) :=
  ⟨⟨by decide, by decide,
      (c5_wave_time_is_member_max.1 twoChainGraph
        [⟨1, ["a"], false, 1, 60⟩, ⟨2, ["b"], false, 1, 45⟩] (by decide)
        ⟨1, ["a"], false, 1, 60⟩ (by decide)).2⟩,
   ⟨by decide, c5_wave_time_is_member_max.2.2.2 ["x"] (by decide)⟩⟩

/-- C4 (amended): only under the literal `parallel_optimized` strategy does
the plan report `optimized total = max of the per-wave times` and
`savings = sequential total - optimized total`; under `priority_based` (as
under any other non-parallel_optimized strategy string) the optimized total
equals the sequential total and the reported saving is zero. -/
theorem c4_optimized_time_formula :
    (∀ (waves : List Wave) (m : Nat),
      (waves.map (·.estimated_time)).max? = some m →
      (create_deployment_plan waves "parallel_optimized").estimated_optimized_time = m ∧
      (create_deployment_plan waves "parallel_optimized").time_savings_seconds =
        (((waves.map (·.estimated_time)).sum : Int) - (m : Int))) ∧
    (∀ waves : List Wave,
      (create_deployment_plan waves "priority_based").estimated_optimized_time =
        (waves.map (·.estimated_time)).sum ∧
      (create_deployment_plan waves "priority_based").time_savings_seconds = 0) := by
  constructor
  · intro waves m hmax
    have hne : waves.isEmpty = false := by
      rcases waves with _ | ⟨w, ws⟩
      · simp [List.max?] at hmax
      · simp
    unfold create_deployment_plan
    simp only [show ("parallel_optimized" == "parallel_optimized") = true from rfl, if_true,
      hne, Bool.false_eq_true, if_false, hmax, Option.getD_some]
    refine ⟨trivial, ?_⟩
    push_cast
    rw [List.map_map]
    rw [show (Nat.cast ∘ fun x : Wave => x.estimated_time) =
      (fun x : Wave => (x.estimated_time : Int)) from rfl]
  · intro waves
    unfold create_deployment_plan
    simp only [show ("priority_based" == "parallel_optimized") = false from rfl,
      Bool.false_eq_true, if_false]
    exact ⟨trivial, trivial⟩

/-- Witness for C4 on a one-wave list. -/
theorem c4_optimized_time_formula_witness :
    ((([⟨1, ["a"], false, 1, 60⟩] : List Wave).map (·.estimated_time)).max? = some 60 ∧
      (create_deployment_plan [⟨1, ["a"], false, 1, 60⟩]
        "parallel_optimized").estimated_optimized_time = 60) ∧
    (create_deployment_plan [⟨1, ["a"], false, 1, 60⟩]
      "priority_based").estimated_optimized_time = 60 :=
  ⟨⟨by decide, (c4_optimized_time_formula.1 [⟨1, ["a"], false, 1, 60⟩] 60 (by decide)).1⟩,
    (c4_optimized_time_formula.2 [⟨1, ["a"], false, 1, 60⟩]).1⟩

/-- Counterexample for C4 as stated: a plan actually computed under the
`priority_based` strategy (services auth-service and menu-service, wave
times 60 and 45) reports optimized total 105 — the sequential sum — not the
per-wave maximum 60, and a saving of 0 rather than 45. -/
theorem c4_optimized_time_counterexample :
    create_priority_based_waves (parse_service_dependencies
        ["auth-service", "menu-service"]) =
      some [⟨1, ["auth-service"], false, 1, 60⟩, ⟨2, ["menu-service"], false, 1, 45⟩] ∧
    (([⟨1, ["auth-service"], false, 1, 60⟩, ⟨2, ["menu-service"], false, 1, 45⟩] :
        List Wave).map (·.estimated_time)).max? = some 60 ∧
    (create_deployment_plan
        [⟨1, ["auth-service"], false, 1, 60⟩, ⟨2, ["menu-service"], false, 1, 45⟩]
        "priority_based").estimated_optimized_time = 105 ∧
    (105 : Nat) ≠ 60 := by
  decide

/-- C3 (amended): a strategy tag outside the closed set does NOT abort
planning when its configuration entry is absent or has `allow_parallel`
false — `get_deployment_order` then behaves exactly like the sequential
strategy; the `Unknown deployment strategy` error is raised only when the
configuration maps the unknown tag to `allow_parallel = true` (and
validation passed). -/
theorem c3_unknown_strategy_fallback :
    (∀ (strats : List (String × DmStratCfg)) (g : Graph) (strategy : String)
        (sel : Option (List String)),
      strategy ∉ ["sequential", "parallel_optimized", "priority_based"] →
      ((strats.lookup strategy).getD ⟨false⟩).allow_parallel = false →
      get_deployment_order strats g strategy sel =
        get_deployment_order strats g "sequential" sel) ∧
    (∀ (strats : List (String × DmStratCfg)) (g : Graph) (strategy : String)
        (sel : Option (List String)),
      strategy ∉ ["sequential", "parallel_optimized", "priority_based"] →
      ((strats.lookup strategy).getD ⟨false⟩).allow_parallel = true →
      (validate_dependencies g).1 = true →
      get_deployment_order strats g strategy sel =
        Except.error ("Unknown deployment strategy: " ++ strategy)) := by
  constructor
  · intro strats g strategy sel _hstrat hap
    unfold get_deployment_order
    by_cases hv : (validate_dependencies g).1
    · simp only [hv, Bool.not_true, Bool.false_eq_true, if_false, hap]
      simp
    · simp only [Bool.not_eq_true] at hv
      simp [hv]
  · intro strats g strategy sel hstrat hap hv
    unfold get_deployment_order
    simp only [hv, Bool.not_true, Bool.false_eq_true, if_false, hap]
    have h1 : (strategy == "sequential") = false := by
      simp only [List.mem_cons, List.mem_singleton] at hstrat
      push_neg at hstrat
      simpa using hstrat.1
    have h2 : (strategy == "parallel_optimized") = false := by
      simp only [List.mem_cons, List.mem_singleton] at hstrat
      push_neg at hstrat
      simpa using hstrat.2.1
    have h3 : (strategy == "priority_based") = false := by
      simp only [List.mem_cons, List.mem_singleton] at hstrat
      push_neg at hstrat
      simpa using hstrat.2.2
    simp [h1, h2, h3]

/-- Witness for C3: the unknown tag `foo` with the repository's strategy
catalog silently plans sequentially, and an unknown tag `custom` configured
with `allow_parallel = true` is the one case that errors. -/
theorem c3_unknown_strategy_fallback_witness :
    (("foo" ∉ ["sequential", "parallel_optimized", "priority_based"]) ∧
      ((dmStrategies.lookup "foo").getD ⟨false⟩).allow_parallel = false ∧
      get_deployment_order dmStrategies singleGraph "foo" none =
        get_deployment_order dmStrategies singleGraph "sequential" none) ∧
    (("custom" ∉ ["sequential", "parallel_optimized", "priority_based"]) ∧
      (([("custom", (⟨true⟩ : DmStratCfg))].lookup "custom").getD ⟨false⟩).allow_parallel =
        true ∧
      (validate_dependencies singleGraph).1 = true ∧
      get_deployment_order [("custom", (⟨true⟩ : DmStratCfg))] singleGraph "custom" none =
        Except.error ("Unknown deployment strategy: " ++ "custom")) :=
  ⟨⟨by decide, by decide,
      c3_unknown_strategy_fallback.1 dmStrategies singleGraph "foo" none
        (by decide) (by decide)⟩,
   ⟨by decide, by decide, by decide,
      c3_unknown_strategy_fallback.2 [("custom", (⟨true⟩ : DmStratCfg))] singleGraph
        "custom" none (by decide) (by decide) (by decide)⟩⟩

/-- Counterexample for C3 as stated: the unknown strategy tag `foo` produces
a successful plan (a sequential one) in both implementations instead of an
UnknownStrategy error: the manager returns the topological order, and the
lambda handler returns a 200 result. -/
theorem c3_unknown_strategy_counterexample :
    get_deployment_order dmStrategies singleGraph "foo" none = Except.ok [["a"]] ∧
    (lambda_handler ["auth-service"] "foo").isOk = true := by
  constructor
  · rfl
  · rfl

/-- C10: the maximum-dependency-depth computation has no value on an empty
service map (Python's `max()` raises there), so the analyzer entry point
returns an error response — not an empty plan — whenever the service list is
empty, under every strategy string. -/
theorem c10_empty_services_is_error :
    calculate_max_dependency_depth [] = none ∧
    ∀ strategy : String,
      lambda_handler [] strategy = Except.error "max() arg is an empty sequence" := by
  refine ⟨rfl, ?_⟩
  intro strategy
  unfold lambda_handler
  by_cases h1 : strategy == "parallel_optimized"
  · simp only [h1, if_true]
    rfl
  · simp only [h1, Bool.false_eq_true, if_false]
    by_cases h2 : strategy == "priority_based"
    · simp only [h2, if_true]
      rfl
    · simp only [h2, Bool.false_eq_true, if_false]
      rfl

lemma contains_congr {d₁ d₂ : List String} (h : ∀ x, x ∈ d₁ ↔ x ∈ d₂) (x : String) :
    d₁.contains x = d₂.contains x := by
  by_cases hx : x ∈ d₁
  · have hx2 : x ∈ d₂ := (h x).mp hx
    simp [List.elem_iff, hx, hx2]
  · have hx2 : x ∉ d₂ := fun hc => hx ((h x).mpr hc)
    simp [List.elem_iff, hx, hx2]

lemma all_congr {l : List String} {p q : String → Bool} (h : ∀ x ∈ l, p x = q x) :
    l.all p = l.all q := by
  induction l with
  | nil => rfl
  | cons a t ih =>
    simp only [List.all_cons]
    rw [h a (List.mem_cons_self _ _), ih fun x hx => h x (List.mem_cons_of_mem _ hx)]

lemma min?_of_perm {l1 l2 : List Nat} (h : l1.Perm l2) : l1.min? = l2.min? := by
  rcases h1 : l1.min? with _ | m
  · rw [List.min?_eq_none_iff] at h1
    subst h1
    have h2 : l2 = [] := h.symm.eq_nil
    rw [h2]
    rfl
  · have hm := (List.min?_eq_some_iff (fun a => le_refl a) (fun a b => min_choice a b)
      (fun a b c => le_min_iff)).mp h1
    symm
    rw [List.min?_eq_some_iff (fun a => le_refl a) (fun a b => min_choice a b)
      (fun a b c => le_min_iff)]
    exact ⟨h.mem_iff.mp hm.1, fun b hb => hm.2 b (h.mem_iff.mpr hb)⟩

/-- C9 (amended): the frontier planner is a pure function of the graph, the
grouping key, the deployed set and the iteration order of the remaining
set — two runs over the same remaining SET (any two enumerations of it) and
membership-equal deployed sets either both fail or produce wave sequences of
equal length whose corresponding waves are permutations of each other; the
member ORDER within each wave, however, follows the supplied container
iteration order (see the counterexample). -/
theorem c9_planning_determinism_up_to_iteration_order :
    ∀ (g : Graph) (key : Svc → Nat) (fuel : Nat) (d₁ d₂ r₁ r₂ : List String),
      r₁.Perm r₂ → (∀ x, x ∈ d₁ ↔ x ∈ d₂) →
      Option.Rel (List.Forall₂ List.Perm)
        (frontierLoop g key fuel d₁ r₁) (frontierLoop g key fuel d₂ r₂) := by
  intro g key fuel
  induction fuel with
  | zero =>
    intro d₁ d₂ r₁ r₂ hr _
    rw [frontierLoop, frontierLoop]
    by_cases he : r₁.isEmpty
    · have he1 : r₁ = [] := List.isEmpty_iff.mp he
      have he2 : r₂ = [] := (he1 ▸ hr).symm.eq_nil
      simp only [he1, he2, List.isEmpty_nil, if_true]
      exact Option.Rel.some List.Forall₂.nil
    · have he2 : r₂.isEmpty = false := by
        rcases hr2 : r₂ with _ | _
        · rw [hr2] at hr
          exact absurd (List.isEmpty_iff.mpr hr.eq_nil) he
        · simp
      simp only [show r₁.isEmpty = false by simpa using he, he2, Bool.false_eq_true, if_false]
      exact Option.Rel.none
  | succ fuel ih =>
    intro d₁ d₂ r₁ r₂ hr hd
    rw [frontierLoop, frontierLoop]
    by_cases he : r₁.isEmpty
    · have he1 : r₁ = [] := List.isEmpty_iff.mp he
      have he2 : r₂ = [] := (he1 ▸ hr).symm.eq_nil
      simp only [he1, he2, List.isEmpty_nil, if_true]
      exact Option.Rel.some List.Forall₂.nil
    · have he2 : r₂.isEmpty = false := by
        rcases hr2 : r₂ with _ | _
        · rw [hr2] at hr
          exact absurd (List.isEmpty_iff.mpr hr.eq_nil) he
        · simp
      simp only [show r₁.isEmpty = false by simpa using he, he2, Bool.false_eq_true, if_false]
      have hdep : ∀ s, deployableB g d₁ s = deployableB g d₂ s := by
        intro s
        unfold deployableB
        refine all_congr ?_
        intro x _
        rw [contains_congr hd x]
      have hdepl : (deplOf g d₁ r₁).Perm (deplOf g d₂ r₂) := by
        unfold deplOf
        have h1 : (r₁.filter (deployableB g d₁)).Perm (r₂.filter (deployableB g d₁)) :=
          hr.filter _
        have h2 : r₂.filter (deployableB g d₁) = r₂.filter (deployableB g d₂) :=
          List.filter_congr fun x _ => hdep x
        exact h2 ▸ h1
      have hmin : ((deplOf g d₁ r₁).map fun s => key (lookupD g s)).min? =
          ((deplOf g d₂ r₂).map fun s => key (lookupD g s)).min? :=
        min?_of_perm (hdepl.map _)
      rcases hm : ((deplOf g d₁ r₁).map fun s => key (lookupD g s)).min? with _ | m
      · have hm2 : ((deplOf g d₂ r₂).map fun s => key (lookupD g s)).min? = none := by
          rw [← hmin]
          exact hm
        rw [hm2]
        exact Option.Rel.none
      · have hm2 : ((deplOf g d₂ r₂).map fun s => key (lookupD g s)).min? = some m := by
          rw [← hmin]
          exact hm
        rw [hm2, Option.some_bind, Option.some_bind]
        have hwave : (waveOf g key d₁ r₁ m).Perm (waveOf g key d₂ r₂ m) := by
          unfold waveOf
          exact hdepl.filter _
        have hd' : ∀ x, x ∈ d₁ ++ waveOf g key d₁ r₁ m ↔ x ∈ d₂ ++ waveOf g key d₂ r₂ m := by
          intro x
          rw [List.mem_append, List.mem_append, hd x, hwave.mem_iff]
        have hr' : (r₁.filter fun s => !(waveOf g key d₁ r₁ m).contains s).Perm
            (r₂.filter fun s => !(waveOf g key d₂ r₂ m).contains s) := by
          have h1 : (r₁.filter fun s => !(waveOf g key d₁ r₁ m).contains s).Perm
              (r₂.filter fun s => !(waveOf g key d₁ r₁ m).contains s) := hr.filter _
          have h2 : (r₂.filter fun s => !(waveOf g key d₁ r₁ m).contains s) =
              r₂.filter fun s => !(waveOf g key d₂ r₂ m).contains s :=
            List.filter_congr fun x _ => by
              rw [contains_congr (fun y => hwave.mem_iff) x]
          exact h2 ▸ h1
        have hrel := ih (d₁ ++ waveOf g key d₁ r₁ m) (d₂ ++ waveOf g key d₂ r₂ m)
          (r₁.filter fun s => !(waveOf g key d₁ r₁ m).contains s)
          (r₂.filter fun s => !(waveOf g key d₂ r₂ m).contains s) hr' hd'
        rcases hrec1 : frontierLoop g key fuel (d₁ ++ waveOf g key d₁ r₁ m)
            (r₁.filter fun s => !(waveOf g key d₁ r₁ m).contains s) with _ | ws₁
        · rw [hrec1] at hrel
          rcases hrec2 : frontierLoop g key fuel (d₂ ++ waveOf g key d₂ r₂ m)
              (r₂.filter fun s => !(waveOf g key d₂ r₂ m).contains s) with _ | ws₂
          · exact Option.Rel.none
          · rw [hrec2] at hrel
            cases hrel
        · rw [hrec1] at hrel
          rcases hrec2 : frontierLoop g key fuel (d₂ ++ waveOf g key d₂ r₂ m)
              (r₂.filter fun s => !(waveOf g key d₂ r₂ m).contains s) with _ | ws₂
          · rw [hrec2] at hrel
            cases hrel
          · rw [hrec2] at hrel
            rw [Option.map_some', Option.map_some']
            cases hrel with
            | some hf => exact Option.Rel.some (List.Forall₂.cons hwave hf)

/-- Witness for C9: two enumerations of the same two-service tie set. -/
theorem c9_planning_determinism_witness :
    (["a", "b"] : List String).Perm ["b", "a"] ∧
    Option.Rel (List.Forall₂ List.Perm)
      (frontierLoop tieGraph (·.group) 2 [] ["a", "b"])
      (frontierLoop tieGraph (·.group) 2 [] ["b", "a"]) :=
  ⟨List.Perm.swap _ _ _,
    c9_planning_determinism_up_to_iteration_order tieGraph (·.group) 2 [] [] ["a", "b"]
      ["b", "a"] (List.Perm.swap _ _ _) (fun _ => Iff.rfl)⟩

/-- Counterexample for C9 as stated: the member order within a wave follows
the container iteration order.  The two tied services `a`, `b` (same
parallel group, no dependencies) form one wave, but enumerating the
remaining set as `[a, b]` yields the wave `[a, b]` while enumerating it as
`[b, a]` yields `[b, a]` — the planner's tie order is iteration-order
dependent, not fixed. -/
theorem c9_planning_determinism_counterexample :
    frontierLoop tieGraph (·.group) 2 [] ["a", "b"] = some [["a", "b"]] ∧
    frontierLoop tieGraph (·.group) 2 [] ["b", "a"] = some [["b", "a"]] ∧
    (["a", "b"] : List String).Perm ["b", "a"] ∧
    (some [["a", "b"]] : Option (List (List String))) ≠ some [["b", "a"]] := by
  refine ⟨rfl, rfl, List.Perm.swap _ _ _, by decide⟩
